import Mathlib

/-!
Verification development for the facttrace repository: a shallow embedding of
the debate orchestrator, agent-output parsing, and verdict synthesis, together
with theorems settling the frozen claims about them.

Modelling conventions:
* Python floats are modelled as exact rationals (`ℚ`); `json.loads` numbers are
  read exactly rather than rounded to binary doubles.
* Python exceptions that the source code can raise and does not catch are
  modelled with an explicit `Except PyErr` result.
* The external LLM generator is a boundary: it is modelled as an abstract
  function from the prompt text to the response text.
-/

namespace Facttrace

/-! ## String utilities (Python `str` operations used by the source) -/

/-- Model of Python `str.lower()` restricted to the ASCII range used here. -/
def strLower (s : String) : String := String.mk (s.toList.map Char.toLower)

/-- Model of Python slicing `s[:n]` (by code points). -/
def strTake (n : ℕ) (s : String) : String := String.mk (s.toList.take n)

/-- Prefix test: `listPrefixOf needle hay` is true when `needle` begins `hay`. -/
def listPrefixOf : List Char → List Char → Bool
  | [], _ => true
  | _ :: _, [] => false
  | a :: as, b :: bs => a = b && listPrefixOf as bs

/-- Substring test: `containsSub hay needle` models Python `needle in hay`. -/
def containsSub (hay needle : List Char) : Bool :=
  match hay with
  | [] => listPrefixOf needle []
  | _ :: t => listPrefixOf needle hay || containsSub t needle

/-- Model of Python `pat in s` on strings. -/
def strContains (s pat : String) : Bool := containsSub s.toList pat.toList

/-- Model of Python `sep.join(parts)`. -/
def strJoin (sep : String) (parts : List String) : String :=
  match parts with
  | [] => ""
  | p :: ps => ps.foldl (fun acc q => acc ++ sep ++ q) p

/-! ## JSON values and a model of `json.loads`

The parser is fuel-indexed with structural recursion so that concrete runs
reduce inside the kernel.  Model boundaries (documented, none of them reachable
from the concrete inputs used below): `\uXXXX` string escapes, the nonstandard
`NaN`/`Infinity` literals, and control-character rejection inside strings are
not modelled. -/

inductive Json where
  | null : Json
  | bool (b : Bool) : Json
  | num (q : ℚ) : Json
  | str (s : String) : Json
  | arr (elems : List Json) : Json
  | obj (members : List (String × Json)) : Json

/-- JSON insignificant whitespace skipping. -/
def skipWs : List Char → List Char
  | [] => []
  | c :: cs => if c = ' ' || c = '\t' || c = '\n' || c = '\r' then skipWs cs else c :: cs

/-- String-literal body parser: consumes up to the closing quote, decoding the
common escapes (`\uXXXX` is a model boundary and is rejected). -/
def parseStrAux : List Char → List Char → Option (List Char × List Char)
  | [], _ => none
  | '"' :: rest, acc => some (acc.reverse, rest)
  | '\\' :: e :: rest, acc =>
    if e = '"' then parseStrAux rest ('"' :: acc)
    else if e = '\\' then parseStrAux rest ('\\' :: acc)
    else if e = '/' then parseStrAux rest ('/' :: acc)
    else if e = 'n' then parseStrAux rest ('\n' :: acc)
    else if e = 't' then parseStrAux rest ('\t' :: acc)
    else if e = 'r' then parseStrAux rest ('\r' :: acc)
    else if e = 'b' then parseStrAux rest ('\x08' :: acc)
    else if e = 'f' then parseStrAux rest ('\x0c' :: acc)
    else none
  | c :: rest, acc => parseStrAux rest (c :: acc)

/-- Digit run splitter. -/
def spanDigits : List Char → List Char × List Char
  | [] => ([], [])
  | c :: cs =>
    if c.isDigit then
      let (d, r) := spanDigits cs
      (c :: d, r)
    else ([], c :: cs)

/-- Digits to a natural number. -/
def digitsToNat (ds : List Char) : ℕ :=
  ds.foldl (fun n c => n * 10 + (c.toNat - 48)) 0

/-- Exponent-part parser of a JSON number: optional sign, then digits. -/
def parseExpPart (cs : List Char) : Option (Bool × ℕ × List Char) :=
  let (eneg, cs1) := match cs with
    | '-' :: t => (true, t)
    | '+' :: t => (false, t)
    | t => (false, t)
  let (ed, cs2) := spanDigits cs1
  if ed = [] then none else some (eneg, digitsToNat ed, cs2)

/-- JSON number parser (`-?int[.frac][(e|E)[+|-]exp]`, leading-zero rule as in
Python's `json`), read exactly into `ℚ` as the single fraction
`±(int·10^k + frac) · 10^±e / 10^k`. -/
def parseNum (cs : List Char) : Option (ℚ × List Char) :=
  let (neg, cs1) := match cs with
    | '-' :: t => (true, t)
    | t => (false, t)
  let (ip, cs2) := spanDigits cs1
  if ip = [] then none
  else if ip.length > 1 ∧ ip.headI = '0' then none
  else
    let fracRes : Option (List Char × List Char) :=
      match cs2 with
      | '.' :: t =>
        let (fp, r) := spanDigits t
        if fp = [] then none else some (fp, r)
      | t => some ([], t)
    match fracRes with
    | none => none
    | some (fp, cs3) =>
      let expRes : Option (Bool × ℕ × List Char) :=
        match cs3 with
        | 'e' :: t => parseExpPart t
        | 'E' :: t => parseExpPart t
        | t => some (false, 0, t)
      match expRes with
      | none => none
      | some (eneg, e, cs4) =>
        let n : ℕ := digitsToNat ip * 10 ^ fp.length + digitsToNat fp
        let num : ℤ := if neg then -(n : ℤ) else (n : ℤ)
        let q : ℚ :=
          if eneg then mkRat num (10 ^ fp.length * 10 ^ e)
          else mkRat (num * (10 : ℤ) ^ e) (10 ^ fp.length)
        some (q, cs4)

/-- Parsing tasks for the JSON machine: a value, the items of an array after
`[`, or the members of an object after `{`. -/
inductive JTask where
  | val (cs : List Char) : JTask
  | items (cs : List Char) : JTask
  | members (cs : List Char) : JTask

/-- Results of the JSON machine, mirroring `JTask`. -/
inductive JOut where
  | val (j : Json) (rest : List Char) : JOut
  | items (l : List Json) (rest : List Char) : JOut
  | members (l : List (String × Json)) (rest : List Char) : JOut

/-- The fuel-indexed recursive-descent JSON parser. -/
def jstep : ℕ → JTask → Option JOut
  | 0, _ => none
  | f + 1, JTask.val cs =>
    match skipWs cs with
    | 'n' :: 'u' :: 'l' :: 'l' :: rest => some (.val .null rest)
    | 't' :: 'r' :: 'u' :: 'e' :: rest => some (.val (.bool true) rest)
    | 'f' :: 'a' :: 'l' :: 's' :: 'e' :: rest => some (.val (.bool false) rest)
    | '"' :: rest =>
      match parseStrAux rest [] with
      | some (s, r) => some (.val (.str (String.mk s)) r)
      | none => none
    | '[' :: rest =>
      match skipWs rest with
      | ']' :: r => some (.val (.arr []) r)
      | cs2 =>
        match jstep f (.items cs2) with
        | some (.items l r) => some (.val (.arr l) r)
        | _ => none
    | '{' :: rest =>
      match skipWs rest with
      | '}' :: r => some (.val (.obj []) r)
      | cs2 =>
        match jstep f (.members cs2) with
        | some (.members l r) => some (.val (.obj l) r)
        | _ => none
    | cs' =>
      match parseNum cs' with
      | some (q, r) => some (.val (.num q) r)
      | none => none
  | f + 1, JTask.items cs =>
    match jstep f (.val cs) with
    | some (.val v r) =>
      match skipWs r with
      | ',' :: r2 =>
        match jstep f (.items r2) with
        | some (.items l r3) => some (.items (v :: l) r3)
        | _ => none
      | ']' :: r2 => some (.items [v] r2)
      | _ => none
    | _ => none
  | f + 1, JTask.members cs =>
    match skipWs cs with
    | '"' :: rest =>
      match parseStrAux rest [] with
      | some (k, r) =>
        match skipWs r with
        | ':' :: r2 =>
          match jstep f (.val r2) with
          | some (.val v r3) =>
            match skipWs r3 with
            | ',' :: r4 =>
              match jstep f (.members r4) with
              | some (.members l r5) => some (.members ((String.mk k, v) :: l) r5)
              | _ => none
            | '}' :: r4 => some (.members [(String.mk k, v)] r4)
            | _ => none
          | _ => none
        | _ => none
      | none => none
    | _ => none

/-- Model of Python `json.loads`: parse one value and require that only
whitespace remains (`json.loads` raises on trailing data). -/
def jsonParse (s : String) : Option Json :=
  let cs := s.toList
  match jstep (2 * cs.length + 16) (.val cs) with
  | some (.val j rest) => if skipWs rest = [] then some j else none
  | _ => none

/-- Model of Python `dict.get` on a decoded JSON object: later duplicate keys
overwrite earlier ones, as in `dict` construction. -/
def objGet (members : List (String × Json)) (k : String) : Option Json :=
  members.reverse.lookup k

/-! ## The regex extraction `re.search(r'\x7b[\s\S]*\x7d', text)`

The pattern is greedy: the match runs from the first opening brace that has
some closing brace after it, to the last closing brace of the whole text.
Equivalently: let `i` be the index of the first opening brace and `j` the index
of the last closing brace; there is a match exactly when `i < j`, and the match
is the slice from `i` to `j` inclusive. -/

/-- Index of the first occurrence of `c`. -/
def firstIdxOf : List Char → Char → Option ℕ
  | [], _ => none
  | a :: t, c => if a = c then some 0 else (firstIdxOf t c).map (· + 1)

/-- Index of the last occurrence of `c`. -/
def lastIdxOf (cs : List Char) (c : Char) : Option ℕ :=
  match firstIdxOf cs.reverse c with
  | some k => some (cs.length - 1 - k)
  | none => none

/-- Model of `re.search(r'\x7b[\s\S]*\x7d', s)`, returning the matched region. -/
def extractBraces (s : String) : Option String :=
  let cs := s.toList
  match firstIdxOf cs '{', lastIdxOf cs '}' with
  | some i, some j =>
    if i < j then some (String.mk ((cs.drop i).take (j + 1 - i))) else none
  | _, _ => none

/-- Modelled from the spec: "locating the first balanced `\x7b...\x7d` region"
of the text.  This definition follows the spec's words (scan from the first
opening brace, tracking brace depth, and stop at the position where the depth
returns to zero); it is the refinement counterpart compared against
`extractBraces`, which is translated from the source regex. -/
def firstBalancedRegion (s : String) : Option String :=
  let cs := s.toList
  match firstIdxOf cs '{' with
  | none => none
  | some i =>
    match balancedScan (cs.drop i) 0 [] with
    | some region => some (String.mk region)
    | none => none
where
  balancedScan : List Char → ℕ → List Char → Option (List Char)
    | [], _, _ => none
    | c :: rest, depth, acc =>
      if c = '{' then balancedScan rest (depth + 1) (c :: acc)
      else if c = '}' then
        if depth ≤ 1 then some ((c :: acc).reverse)
        else balancedScan rest (depth - 1) (c :: acc)
      else balancedScan rest depth (c :: acc)

/-! ## Agent verdicts and the two-tier response parser

Source: `agents/base_agent.py` (`AgentVerdict`, `BaseAgent._parse_verdict`) and
`debate/crew.py` (`parse_verdict_from_output`). -/

/-- Python exceptions relevant to the modelled code paths.  The source's
`try/except` around JSON extraction catches `json.JSONDecodeError`, `KeyError`
and `ValueError`; an `AttributeError` (from `.lower()` on a non-string) or a
`TypeError` (from `float()` on an unsupported type) propagates to the caller. -/
inductive PyErr where
  | keyError (k : String) : PyErr
  | valueError : PyErr
  | typeError : PyErr
  | attributeError : PyErr
  deriving DecidableEq, Repr

/-- Structured verdict from an agent (`AgentVerdict` dataclass). -/
structure AgentVerdict where
  agent_name : String
  verdict : String
  confidence : ℚ
  reasoning : String
  evidence : List String
  deriving DecidableEq, Repr

/-- Model of Python `float(x)` on a decoded JSON value (exact rationals).
A numeric string is converted (this models `float(str)` on the plain decimal
forms; other accepted spellings such as `"inf"` are a model boundary), a
non-numeric string raises `ValueError` (caught by the parser's `except`), and
`None`/lists/objects raise `TypeError` (not caught). -/
def pyFloat : Json → Except PyErr ℚ
  | .num q => .ok q
  | .bool b => .ok (if b then 1 else 0)
  | .str s =>
    match parseNum s.toList with
    | some (q, rest) => if rest = [] then .ok q else .error .valueError
    | none => .error .valueError
  | _ => .error .typeError

/-- Model of `data.get("verdict", "uncertain").lower()`: a missing key yields
the default, a string value is lowercased, and a non-string value raises
`AttributeError` (which the source does not catch). -/
def getVerdictField (members : List (String × Json)) : Except PyErr String :=
  match objGet members "verdict" with
  | none => .ok "uncertain"
  | some (.str s) => .ok (strLower s)
  | some _ => .error .attributeError

/-- Model of `float(data.get("confidence", 0.5))`. -/
def getConfidenceField (members : List (String × Json)) : Except PyErr ℚ :=
  match objGet members "confidence" with
  | none => .ok (mkRat 1 2)
  | some j => pyFloat j

/-- Model of `data.get("reasoning", "No reasoning provided")`.  Python would
accept a non-string value here unchecked and only fail at its first string
use; that dynamically-ill-typed case is a model boundary, mapped to
`TypeError` at parse time. -/
def getReasoningField (members : List (String × Json)) : Except PyErr String :=
  match objGet members "reasoning" with
  | none => .ok "No reasoning provided"
  | some (.str s) => .ok s
  | some _ => .error .typeError

/-- Model of `data.get("evidence", [])`, under the same model boundary as
`getReasoningField`: a non-list value, or a list with non-string entries, is
mapped to `TypeError` at parse time. -/
def getEvidenceField (members : List (String × Json)) : Except PyErr (List String) :=
  match objGet members "evidence" with
  | none => .ok []
  | some (.arr xs) =>
    xs.foldr
      (fun j acc =>
        match j, acc with
        | .str s, .ok l => .ok (s :: l)
        | _, .ok _ => .error .typeError
        | _, .error e => .error e)
      (Except.ok [])
  | some _ => .error .typeError

/-- The structured (JSON) tier of verdict parsing: build an `AgentVerdict` from
the decoded object's fields. -/
def buildVerdictFromJson (agentName : String) : Json → Except PyErr AgentVerdict
  | .obj members => do
    let v ← getVerdictField members
    let c ← getConfidenceField members
    let r ← getReasoningField members
    let e ← getEvidenceField members
    .ok ⟨agentName, v, c, r, e⟩
  | _ => .error .typeError

/-- The keyword fallback tier: scan the raw text case-insensitively for
"faithful" then "mutation", with confidence `0.5`, the first 500 characters as
reasoning, and no evidence. -/
def fallbackVerdict (agentName response : String) : AgentVerdict :=
  let lowered := strLower response
  let v :=
    if strContains lowered "faithful" then "faithful"
    else if strContains lowered "mutation" then "mutation"
    else "uncertain"
  ⟨agentName, v, mkRat 1 2, strTake 500 response, []⟩

/-- Translation of `BaseAgent._parse_verdict`: try the greedy brace region as
JSON; a decode failure or a caught exception (`KeyError`/`ValueError`) falls
back to the keyword tier; an uncaught `AttributeError`/`TypeError` propagates. -/
def parse_verdict (agentName response : String) : Except PyErr AgentVerdict :=
  let structured : Option (Except PyErr AgentVerdict) :=
    match extractBraces response with
    | none => none
    | some region =>
      match jsonParse region with
      | none => none
      | some j => some (buildVerdictFromJson agentName j)
  match structured with
  | some (.ok v) => .ok v
  | some (.error (.keyError k)) =>
    -- `except (json.JSONDecodeError, KeyError, ValueError)` catches this
    let _ := k
    .ok (fallbackVerdict agentName response)
  | some (.error .valueError) => .ok (fallbackVerdict agentName response)
  | some (.error e) => .error e
  | none => .ok (fallbackVerdict agentName response)

/-- Translation of `parse_verdict_from_output` from `debate/crew.py`: the same
two tiers, except that an empty raw text falls back with reasoning
"No response". -/
def parse_verdict_from_output (output agentName : String) : Except PyErr AgentVerdict :=
  let structured : Option (Except PyErr AgentVerdict) :=
    match extractBraces output with
    | none => none
    | some region =>
      match jsonParse region with
      | none => none
      | some j => some (buildVerdictFromJson agentName j)
  let fb :=
    let base := fallbackVerdict agentName output
    if output = "" then
      ⟨base.agent_name, base.verdict, base.confidence, "No response", base.evidence⟩
    else base
  match structured with
  | some (.ok v) => .ok v
  | some (.error (.keyError k)) =>
    let _ := k
    .ok fb
  | some (.error .valueError) => .ok fb
  | some (.error e) => .error e
  | none => .ok fb

/-- Modelled from the spec: the variant of the two-tier parse whose structured
tier decodes "the first balanced `\x7b...\x7d` region" (spec §4.1) instead of the
source's greedy regex region.  Used as the refinement counterpart for claims
about the extraction rule. -/
def parse_verdict_spec (agentName response : String) : Except PyErr AgentVerdict :=
  let structured : Option (Except PyErr AgentVerdict) :=
    match firstBalancedRegion response with
    | none => none
    | some region =>
      match jsonParse region with
      | none => none
      | some j => some (buildVerdictFromJson agentName j)
  match structured with
  | some (.ok v) => .ok v
  | some (.error (.keyError k)) =>
    let _ := k
    .ok (fallbackVerdict agentName response)
  | some (.error .valueError) => .ok (fallbackVerdict agentName response)
  | some (.error e) => .error e
  | none => .ok (fallbackVerdict agentName response)

/-! ## Verdict synthesis

Source: `debate/verdict.py` (`FinalVerdict`, `VerdictSynthesizer`). -/

/-- The synthesized final verdict (`FinalVerdict` dataclass). -/
structure FinalVerdict where
  verdict : String
  confidence : ℚ
  reasoning : String
  dissenting_opinions : List String
  mutation_type : Option String
  deriving DecidableEq, Repr

/-- Round-half-even rounding of `q * 100`, the rule used when Python formats
a float with two decimals (or as a percentage with none).  Computed with
integer operations on the reduced fraction so that concrete runs reduce in
the kernel: for `q = num/den`, compare twice the remainder of
`(num * 100) / den` against `den`. -/
def roundHalfEven100 (q : ℚ) : ℤ :=
  let n : ℤ := q.num * 100
  let d : ℤ := (q.den : ℤ)
  let f : ℤ := Int.fdiv n d
  let r2 : ℤ := 2 * (n - f * d)
  if r2 < d then f
  else if d < r2 then f + 1
  else if f % 2 = 0 then f else f + 1

/-- Model of the Python format `f"\x7bx:.2f\x7d"` on an exact rational (ties at the
third decimal follow round-half-even; double-rounding artifacts of binary
floats are a model boundary, and no claim depends on this cosmetic string). -/
def fmtFixed2 (q : ℚ) : String :=
  let n := roundHalfEven100 q
  let m := n.natAbs
  let fracDigits := m % 100
  let frac := if fracDigits < 10 then "0" ++ toString fracDigits else toString fracDigits
  (if n < 0 then "-" else "") ++ toString (m / 100) ++ "." ++ frac

/-- Model of the Python format `f"\x7bx:.0%\x7d"` (percentage with no decimals). -/
def fmtPct (q : ℚ) : String :=
  let n := roundHalfEven100 q
  (if n < 0 then "-" else "") ++ toString n.natAbs ++ "%"

/-- Keyword list for the `temporal` mutation type, the first one tested by
`VerdictSynthesizer._identify_mutation_type`. -/
def temporalWords : List String := ["date", "temporal", "time", "when", "as of", "after", "before"]

/-- Keyword list for the `numerical` mutation type. -/
def numericalWords : List String := ["number", "statistic", "figure", "count", "more than", "less than"]

/-- Keyword list for the `contextual` mutation type. -/
def contextualWords : List String := ["context", "caveat", "omit", "missing", "qualifier"]

/-- Keyword list for the `framing` mutation type. -/
def framingWords : List String := ["frame", "framing", "implication", "meaning", "interpretation"]

/-- Translation of `VerdictSynthesizer._identify_mutation_type` (it reads
`debate_result.initial_verdicts`; the callers pass the same verdict list that
is being synthesized, so the model takes the list directly): join the lowered
reasonings followed by all evidence strings, lower the whole text, and test
the keyword lists in priority order. -/
def identify_mutation_type (verdicts : List AgentVerdict) : String :=
  let all_reasoning := verdicts.map (fun v => strLower v.reasoning)
  let all_evidence := verdicts.flatMap (fun v => v.evidence)
  let combined := strLower (strJoin " " (all_reasoning ++ all_evidence))
  if temporalWords.any (fun w => strContains combined w) then "temporal"
  else if numericalWords.any (fun w => strContains combined w) then "numerical"
  else if contextualWords.any (fun w => strContains combined w) then "contextual"
  else if framingWords.any (fun w => strContains combined w) then "framing"
  else "unspecified"

/-- The fixed-key vote accumulator `\x7b"faithful": 0.0, "mutation": 0.0,
"uncertain": 0.0\x7d`. -/
structure Votes where
  faithful : ℚ
  mutation : ℚ
  uncertain : ℚ
  deriving DecidableEq, Repr

/-- Model of `votes[v.verdict] += v.confidence`: a label outside the three
fixed keys raises `KeyError`. -/
def addVote (votes : Votes) (v : AgentVerdict) : Except PyErr Votes :=
  if v.verdict = "faithful" then
    .ok ⟨votes.faithful + v.confidence, votes.mutation, votes.uncertain⟩
  else if v.verdict = "mutation" then
    .ok ⟨votes.faithful, votes.mutation + v.confidence, votes.uncertain⟩
  else if v.verdict = "uncertain" then
    .ok ⟨votes.faithful, votes.mutation, votes.uncertain + v.confidence⟩
  else .error (.keyError v.verdict)

/-- Model of `max(votes, key=votes.get)` over the fixed key order
`faithful, mutation, uncertain`: Python's `max` keeps the earliest key on
ties (a later key replaces the current one only when strictly greater). -/
def winnerOf (votes : Votes) : String :=
  if votes.mutation > votes.faithful then
    if votes.uncertain > votes.mutation then "uncertain" else "mutation"
  else
    if votes.uncertain > votes.faithful then "uncertain" else "faithful"

/-- The winning key's accumulated total, `votes[winner]`. -/
def votesAt (votes : Votes) (label : String) : ℚ :=
  if label = "faithful" then votes.faithful
  else if label = "mutation" then votes.mutation
  else votes.uncertain

/-- Translation of `VerdictSynthesizer._majority_vote`: confidence-weighted
majority with the fixed three-key vote dict, final confidence
`votes[winner] / total` when the total is positive (else `0`), dissent
excerpts from non-winning verdicts, and the mutation type derived only for a
`mutation` winner. -/
def majority_vote (verdicts : List AgentVerdict) : Except PyErr FinalVerdict := do
  let votes ← verdicts.foldlM addVote ⟨0, 0, 0⟩
  let winner := winnerOf votes
  let total_confidence := votes.faithful + votes.mutation + votes.uncertain
  let final_confidence := if total_confidence > 0 then votesAt votes winner / total_confidence else 0
  let dissenting :=
    (verdicts.filter (fun v => v.verdict ≠ winner)).map
      (fun v => v.agent_name ++ ": " ++ strTake 100 v.reasoning ++ "...")
  let vote_summary := strJoin ", " (verdicts.map (fun v => v.agent_name ++ "=" ++ v.verdict))
  let reasoning :=
    "Majority vote (" ++ vote_summary ++ "). Winner: " ++ winner ++
      " with weighted score " ++ fmtFixed2 (votesAt votes winner)
  .ok ⟨winner, final_confidence, reasoning, dissenting,
    if winner = "mutation" then some (identify_mutation_type verdicts) else none⟩

/-- Translation of `VerdictSynthesizer._unanimous_vote`: a single shared label
wins with the mean confidence and no dissent; otherwise the result is forced
to `uncertain` at confidence `0.5` with every agent's label recorded as
dissent.  (The mean is only computed in the unanimous branch, where the list
is necessarily non-empty, so no division by zero can occur.) -/
def unanimous_vote (verdicts : List AgentVerdict) : FinalVerdict :=
  let verdict_set := (verdicts.map (fun v => v.verdict)).dedup
  match verdict_set with
  | [winner] =>
    let avg := (verdicts.map (fun v => v.confidence)).sum / (verdicts.length : ℚ)
    let reasoning :=
      "Unanimous agreement: all " ++ toString verdicts.length ++ " agents voted " ++ winner
    ⟨winner, avg, reasoning, [],
      if winner = "mutation" then some (identify_mutation_type verdicts) else none⟩
  | _ =>
    let reasoning :=
      "No consensus: agents voted " ++ strJoin ", " (verdicts.map (fun v => v.verdict))
    let dissenting := verdicts.map (fun v => v.agent_name ++ ": " ++ v.verdict)
    ⟨"uncertain", 1 / 2, reasoning, dissenting, none⟩

/-- Outcome of `VerdictSynthesizer.synthesize`'s strategy dispatch: either a
locally computed result, or a call to the external generator (the `llm`
branch, whose result depends on the generator's response). -/
inductive SynthesisStep where
  | done (result : Except PyErr FinalVerdict) : SynthesisStep
  | callGenerator : SynthesisStep

/-- Translation of the dispatch in `VerdictSynthesizer.synthesize`: the string
`"majority"` selects the weighted majority, `"unanimous"` selects unanimity,
and every other strategy string — with no validation — falls into the
generator-mediated `llm` branch. -/
def synthesize (strategy : String) (verdicts : List AgentVerdict) : SynthesisStep :=
  if strategy = "majority" then .done (majority_vote verdicts)
  else if strategy = "unanimous" then .done (.ok (unanimous_vote verdicts))
  else .callGenerator

/-! ## The debate protocol

Source: `debate/protocol.py` (`DebateProtocol`).  An agent is modelled by its
name and colour together with abstract `analyze`/`respondTo` behaviours; a
behaviour returning `Except.error e` models the underlying generator call
raising an exception with text `e`.  The source's parallel branch
(`ThreadPoolExecutor`, `parallel=True`) produces the same verdicts with a
scheduler-dependent order; the model follows the sequential branch, which is
the order-deterministic one. -/

/-- An agent as the protocol sees it: a persona plus its two fallible calls. -/
structure PAgent where
  name : String
  color : String
  analyze : String → String → Except String AgentVerdict
  respondTo : List AgentVerdict → String → String → Except String String

/-- One response record `\x7b"agent": ..., "color": ..., "response": ...\x7d`. -/
structure PResponse where
  agent : String
  color : String
  response : String
  deriving DecidableEq, Repr

/-- A single round of debate (`DebateRound` dataclass). -/
structure PDebateRound where
  round_number : ℕ
  responses : List PResponse
  deriving DecidableEq, Repr

/-- Complete result of a debate session (`DebateResult` dataclass, before the
synthesizer fills in the final fields). -/
structure PDebateResult where
  case_id : ℤ
  claim : String
  truth : String
  initial_verdicts : List AgentVerdict
  debate_rounds : List PDebateRound
  deriving DecidableEq, Repr

/-- The degraded verdict substituted when an agent's `analyze` raises:
`uncertain`, confidence `0.0`, the error text as reasoning. -/
def degradedVerdict (agentName errText : String) : AgentVerdict :=
  ⟨agentName, "uncertain", 0, "Error: " ++ errText, []⟩

/-- Translation of `DebateProtocol._collect_initial_verdicts` (sequential
branch): each agent analyzes independently; a raising call degrades to the
`uncertain`/`0.0` placeholder instead of aborting the round. -/
def collect_initial_verdicts (agents : List PAgent) (claim truth : String) :
    List AgentVerdict :=
  agents.map fun a =>
    match a.analyze claim truth with
    | .ok v => v
    | .error e => degradedVerdict a.name e

/-- Translation of `DebateProtocol._run_debate_round`: every agent responds to
the given verdicts; a raising call degrades to an error placeholder response. -/
def run_debate_round (agents : List PAgent) (round_num : ℕ) (claim truth : String)
    (verdicts : List AgentVerdict) : PDebateRound :=
  ⟨round_num,
    agents.map fun a =>
      match a.respondTo verdicts claim truth with
      | .ok r => ⟨a.name, a.color, r⟩
      | .error e => ⟨a.name, a.color, "[Error generating response: " ++ e ++ "]"⟩⟩

/-- Translation of `DebateProtocol.run_debate`: round 1 collects independent
verdicts; only the `"deliberation"` mode with a positive round count runs
deliberation rounds, and every such round passes the same `initial_verdicts`
to `respond_to`.  Any other mode string silently behaves as one-shot. -/
def protocol_run_debate (agents : List PAgent) (mode : String) (max_rounds : ℕ)
    (claim truth : String) (case_id : ℤ) : PDebateResult :=
  let initial_verdicts := collect_initial_verdicts agents claim truth
  let debate_rounds :=
    if mode = "deliberation" ∧ 0 < max_rounds then
      (List.range max_rounds).map fun i =>
        run_debate_round agents (i + 1) claim truth initial_verdicts
    else []
  ⟨case_id, claim, truth, initial_verdicts, debate_rounds⟩

/-! ## The six-persona CrewAI debate

Source: `debate/crew.py` (`FactCheckCrew._check_consensus`,
`FactCheckCrew.run_debate`).  A crew agent is modelled as its display name
together with an abstract behaviour mapping the task description it receives
to its textual output (the `crew.kickoff()` generator boundary); the output is
then parsed with `parse_verdict_from_output` exactly as in the source.  The
final judge synthesis is a further generator call and is outside this model.
The model also records, per round, the task description handed to that round's
agents — the observable input at the generator boundary (within one round all
five agents receive the same description text). -/

/-- Translation of `FactCheckCrew._check_consensus`: count the votes per label
and report whether some label's share of the votes reaches the threshold. -/
def check_consensus (verdicts : List AgentVerdict) (threshold : ℚ) : Bool :=
  let labels := verdicts.map (fun v => v.verdict)
  (labels.dedup).any (fun k => ((labels.count k : ℚ) / (verdicts.length : ℚ)) ≥ threshold)

/-- The round-1 task description of `FactCheckCrew.run_debate`. -/
def round1TaskDesc (truth claim : String) : String :=
  "Analyze whether this CLAIM faithfully represents the SOURCE.\n\nSOURCE TRUTH:\n"
    ++ truth ++ "\n\nCLAIM:\n" ++ claim
    ++ "\n\nProvide your INDEPENDENT assessment. Focus on your area of expertise."

/-- The task description of rounds `k ≥ 2` of `FactCheckCrew.run_debate`,
embedding the accumulated debate context. -/
def rebuttalTaskDesc (ctx truth claim : String) : String :=
  "Continue the investigation. Review your colleagues' assessments:\n\n"
    ++ ctx ++ "\n\nSOURCE TRUTH:\n" ++ truth ++ "\n\nCLAIM:\n" ++ claim
    ++ "\n\nConsider their arguments. Respond to points you agree or disagree with.\nHave they raised valid concerns you missed? Do you want to update your assessment?"

/-- The per-verdict context line appended to a round's context. -/
def contextLine (name : String) (v : AgentVerdict) : String :=
  "\n" ++ name ++ ": " ++ v.verdict ++ " (" ++ fmtPct v.confidence ++ ") - "
    ++ strTake 300 v.reasoning ++ "...\n"

/-- The header opening a round's context. -/
def roundHeader (round_num : ℕ) : String :=
  "\n=== Round " ++ toString round_num ++ " ===\n"

/-- A crew agent: display name and the generator-boundary behaviour from task
description to raw output text. -/
structure CrewAgent where
  name : String
  behave : String → String

/-- One round of the crew loop: every agent receives `taskDesc`, its output is
parsed (a parse-time `AttributeError`/`TypeError` propagates, as in the
source, which has no `try` around this loop), and the round context
accumulates one line per verdict. -/
def crewRoundStep (agents : List CrewAgent) (taskDesc : String) (round_num : ℕ) :
    Except PyErr (List AgentVerdict × String) :=
  agents.foldlM
    (fun acc ag => do
      let output := ag.behave taskDesc
      let v ← parse_verdict_from_output output ag.name
      .ok (acc.1 ++ [v], acc.2 ++ contextLine ag.name v))
    ([], roundHeader round_num)

/-- State accumulated by the round loop of `FactCheckCrew.run_debate`:
the current round's verdicts (`all_verdicts`), the recorded rounds
(round number with its verdicts), the accumulated context text, and the
task descriptions issued at the generator boundary. -/
structure CrewRoundsOutcome where
  all_verdicts : List AgentVerdict
  debate_rounds : List (ℕ × List AgentVerdict)
  current_context : String
  prompts : List (ℕ × String)
  deriving DecidableEq, Repr

/-- Translation of the round loop of `FactCheckCrew.run_debate`: rounds run
from 1 up to `max_rounds` (via the `remaining` counter); round 1 uses the
independent task description and later rounds embed the accumulated context;
after a round, the loop breaks
early exactly when the round number is at least 3 and the 80% consensus check
succeeds on that round's verdicts; a parse-time exception propagates (the
source has no handler around the round loop). -/
def crewGo (agents : List CrewAgent) (claim truth : String) :
    ℕ → ℕ → CrewRoundsOutcome → Except PyErr CrewRoundsOutcome
  | 0, _, st => .ok st
  | remaining + 1, round_num, st =>
    let taskDesc :=
      if round_num = 1 then round1TaskDesc truth claim
      else rebuttalTaskDesc st.current_context truth claim
    match crewRoundStep agents taskDesc round_num with
    | .error e => .error e
    | .ok (round_verdicts, round_context) =>
      let st' : CrewRoundsOutcome :=
        ⟨round_verdicts, st.debate_rounds ++ [(round_num, round_verdicts)],
          st.current_context ++ round_context, st.prompts ++ [(round_num, taskDesc)]⟩
      if 3 ≤ round_num ∧ check_consensus round_verdicts (4 / 5) then .ok st'
      else crewGo agents claim truth remaining (round_num + 1) st'

/-- Entry point of the round loop: rounds start at 1 with empty state. -/
def crew_run_debate_rounds (agents : List CrewAgent) (claim truth : String)
    (max_rounds : ℕ) : Except PyErr CrewRoundsOutcome :=
  crewGo agents claim truth max_rounds 1 ⟨[], [], "", []⟩

/-! ## Specification-side definitions shared by the theorems -/

/-- The closed label enumeration of the spec's data model. -/
def enumLabels : List String := ["faithful", "mutation", "uncertain"]

/-- The summed confidence a label receives across a verdict list ("sum each
label's confidences across all Verdicts"). -/
def labelTotal (l : String) (vs : List AgentVerdict) : ℚ :=
  ((vs.filter (fun v => v.verdict = l)).map (fun v => v.confidence)).sum

/-! ## Concrete instances and inputs used by the theorems -/

/-- Decidable equality for `Except` results, used to evaluate concrete runs. -/
instance {e a : Type} [DecidableEq e] [DecidableEq a] : DecidableEq (Except e a) := fun x y =>
  match x, y with
  | .error u, .error v =>
    if h : u = v then isTrue (by rw [h]) else isFalse (by intro hc; cases hc; exact h rfl)
  | .ok u, .ok v =>
    if h : u = v then isTrue (by rw [h]) else isFalse (by intro hc; cases hc; exact h rfl)
  | .error _, .ok _ => isFalse (by intro hc; cases hc)
  | .ok _, .error _ => isFalse (by intro hc; cases hc)

/-- The three per-label confidence totals of a verdict list, packaged in the
vote accumulator's shape. -/
def tallies (vs : List AgentVerdict) : Votes :=
  ⟨labelTotal "faithful" vs, labelTotal "mutation" vs, labelTotal "uncertain" vs⟩

/-- A syntactically valid generator output whose JSON fields are outside the
spec's domains: an unrecognized label and an out-of-range confidence. -/
def c1FailingOutput : String :=
  "\x7b\"verdict\": \"Bogus\", \"confidence\": 2.5\x7d"

/-- A generator output producible by the system's own parsing whose decoded
label lies outside the three fixed vote keys. -/
def c6BadOutput : String :=
  "\x7b\"verdict\": \"Bogus\", \"confidence\": 0.9, \"reasoning\": \"r\"\x7d"

/-- Witness verdict list for the weighted-majority characterization. -/
def c3Witness : List AgentVerdict :=
  [⟨"literalist", "mutation", mkRat 7 10, "date shifted", []⟩,
   ⟨"contextualist", "faithful", mkRat 3 10, "close enough", []⟩,
   ⟨"statistician", "mutation", mkRat 7 10, "figure inflated", []⟩]

/-- Input on which the claim's stated confidence rule fails: the confidences
sum to `-1`, so the claimed quotient is `-1` while the code returns `0`. -/
def c3Bad : List AgentVerdict :=
  [⟨"A", "faithful", 1, "r", []⟩, ⟨"B", "mutation", -2, "s", []⟩]

/-- Tie input for the tie-breaking witness: faithful and mutation tie at
summed confidence `1`. -/
def c10Witness : List AgentVerdict :=
  [⟨"A", "faithful", 1, "ra", []⟩, ⟨"B", "mutation", 1, "rb", []⟩]

/-- A permuted pair whose dissent lists come out in different orders. -/
def c9a : List AgentVerdict :=
  [⟨"A", "faithful", 3, "ra", []⟩, ⟨"B", "mutation", 1, "rb", []⟩,
   ⟨"C", "mutation", 1, "rc", []⟩]

/-- The same verdicts with the two dissenters swapped. -/
def c9b : List AgentVerdict :=
  [⟨"A", "faithful", 3, "ra", []⟩, ⟨"C", "mutation", 1, "rc", []⟩,
   ⟨"B", "mutation", 1, "rb", []⟩]

/-- A permuted pair whose mutation types differ: joining the reasonings in one
order produces the two-word temporal keyword "as of", the other order does
not. -/
def c9m1 : List AgentVerdict :=
  [⟨"A", "mutation", 1, "as", []⟩, ⟨"B", "mutation", 1, "of", []⟩]

/-- The keyword-splitting pair, swapped. -/
def c9m2 : List AgentVerdict :=
  [⟨"B", "mutation", 1, "of", []⟩, ⟨"A", "mutation", 1, "as", []⟩]

/-- A generator output with a well-formed JSON object followed by a stray
brace region: the first balanced region decodes, the greedy region does not. -/
def c4Output : String :=
  "\x7b\"verdict\": \"mutation\", \"confidence\": 0.9\x7d \x7boops\x7d"

/-- A well-behaved agent used to exercise configuration handling. -/
def c7Agent : PAgent :=
  ⟨"literalist", "blue",
   fun _ _ => .ok ⟨"literalist", "faithful", 1, "ok", []⟩,
   fun _ _ _ => .ok "agree"⟩

/-- Witness roster: three agents, the middle one raising on both calls. -/
def c5Agents : List PAgent :=
  [⟨"literalist", "blue",
    fun _ _ => .ok ⟨"literalist", "mutation", 1, "date shifted", []⟩,
    fun _ _ _ => .ok "I maintain my analysis."⟩,
   ⟨"contextualist", "green",
    fun _ _ => .error "API timeout",
    fun _ _ _ => .error "API timeout"⟩,
   ⟨"statistician", "red",
    fun _ _ => .ok ⟨"statistician", "mutation", 1, "figure off", []⟩,
    fun _ _ _ => .ok "The numbers agree."⟩]

/-- Witness roster for the consensus-stopping theorem: a single agent whose
generator output is empty text (parsed by the fallback tier). -/
def c2Roster : List CrewAgent := [⟨"a1", fun _ => ""⟩]

/-- A deliberation-mode agent whose rebuttal reports how many verdicts it was
shown. -/
def c8Agent : PAgent :=
  ⟨"literalist", "blue",
   fun _ _ => .ok ⟨"literalist", "mutation", 1, "date shifted", []⟩,
   fun vs _ _ => .ok ("I reviewed " ++ toString vs.length ++ " verdicts.")⟩

/-! ## Facts about the vote fold of `majority_vote` -/

/-- Evaluating the vote fold when every label is in the enumeration: the
accumulator collects exactly each label's summed confidence. -/
theorem foldlM_addVote_ok (vs : List AgentVerdict) (init : Votes)
    (h : ∀ v ∈ vs, v.verdict ∈ enumLabels) :
    vs.foldlM addVote init =
      .ok ⟨init.faithful + labelTotal "faithful" vs,
           init.mutation + labelTotal "mutation" vs,
           init.uncertain + labelTotal "uncertain" vs⟩ := by
  induction vs generalizing init with
  | nil => simp [labelTotal, List.foldlM_nil, pure, Except.pure]
  | cons v vs ih =>
    have hv : v.verdict ∈ enumLabels := h v (List.mem_cons_self v vs)
    have hrest : ∀ w ∈ vs, w.verdict ∈ enumLabels := fun w hw => h w (List.mem_cons_of_mem v hw)
    simp only [enumLabels, List.mem_cons, List.not_mem_nil, or_false] at hv
    have hstep :
        ∀ init' : Votes, addVote init v = Except.ok init' →
          (v :: vs).foldlM addVote init =
            vs.foldlM addVote init' := by
      intro init' hok
      rw [List.foldlM_cons, hok]
      rfl
    rcases hv with hv | hv | hv
    · rw [hstep ⟨init.faithful + v.confidence, init.mutation, init.uncertain⟩
        (by simp [addVote, hv]), ih _ hrest]
      have hf : labelTotal "faithful" (v :: vs) = v.confidence + labelTotal "faithful" vs := by
        simp [labelTotal, List.filter_cons, hv]
      have hm : labelTotal "mutation" (v :: vs) = labelTotal "mutation" vs := by
        simp [labelTotal, List.filter_cons, hv]
      have hu : labelTotal "uncertain" (v :: vs) = labelTotal "uncertain" vs := by
        simp [labelTotal, List.filter_cons, hv]
      rw [hf, hm, hu]
      simp [add_assoc]
    · rw [hstep ⟨init.faithful, init.mutation + v.confidence, init.uncertain⟩
        (by simp [addVote, hv]), ih _ hrest]
      have hf : labelTotal "faithful" (v :: vs) = labelTotal "faithful" vs := by
        simp [labelTotal, List.filter_cons, hv]
      have hm : labelTotal "mutation" (v :: vs) = v.confidence + labelTotal "mutation" vs := by
        simp [labelTotal, List.filter_cons, hv]
      have hu : labelTotal "uncertain" (v :: vs) = labelTotal "uncertain" vs := by
        simp [labelTotal, List.filter_cons, hv]
      rw [hf, hm, hu]
      simp [add_assoc]
    · rw [hstep ⟨init.faithful, init.mutation, init.uncertain + v.confidence⟩
        (by simp [addVote, hv]), ih _ hrest]
      have hf : labelTotal "faithful" (v :: vs) = labelTotal "faithful" vs := by
        simp [labelTotal, List.filter_cons, hv]
      have hm : labelTotal "mutation" (v :: vs) = labelTotal "mutation" vs := by
        simp [labelTotal, List.filter_cons, hv]
      have hu : labelTotal "uncertain" (v :: vs) = v.confidence + labelTotal "uncertain" vs := by
        simp [labelTotal, List.filter_cons, hv]
      rw [hf, hm, hu]
      simp [add_assoc]

/-- Evaluating the vote fold when some label is outside the enumeration: the
fold raises a `KeyError` whose key is itself a label outside the enumeration. -/
theorem foldlM_addVote_error (vs : List AgentVerdict) (init : Votes)
    (h : ∃ v ∈ vs, v.verdict ∉ enumLabels) :
    ∃ k, vs.foldlM addVote init = .error (.keyError k) ∧ k ∉ enumLabels := by
  induction vs generalizing init with
  | nil => simp at h
  | cons v vs ih =>
    by_cases hv : v.verdict ∈ enumLabels
    · have hbad : ∃ w ∈ vs, w.verdict ∉ enumLabels := by
        rcases h with ⟨w, hw, hwbad⟩
        rcases List.mem_cons.mp hw with rfl | hw'
        · exact absurd hv hwbad
        · exact ⟨w, hw', hwbad⟩
      simp only [enumLabels, List.mem_cons, List.not_mem_nil, or_false] at hv
      rcases hv with hv | hv | hv
      · have hok : addVote init v =
            Except.ok ⟨init.faithful + v.confidence, init.mutation, init.uncertain⟩ := by
          simp [addVote, hv]
        rw [List.foldlM_cons, hok]
        exact ih _ hbad
      · have hok : addVote init v =
            Except.ok ⟨init.faithful, init.mutation + v.confidence, init.uncertain⟩ := by
          simp [addVote, hv]
        rw [List.foldlM_cons, hok]
        exact ih _ hbad
      · have hok : addVote init v =
            Except.ok ⟨init.faithful, init.mutation, init.uncertain + v.confidence⟩ := by
          simp [addVote, hv]
        rw [List.foldlM_cons, hok]
        exact ih _ hbad
    · refine ⟨v.verdict, ?_, hv⟩
      have herr : addVote init v = Except.error (.keyError v.verdict) := by
        simp only [enumLabels, List.mem_cons, List.not_mem_nil, or_false, not_or] at hv
        simp [addVote, hv.1, hv.2.1, hv.2.2]
      rw [List.foldlM_cons, herr]
      rfl

/-- Closed-form evaluation of `majority_vote` when every label lies in the
enumeration. -/
theorem majority_vote_eq_of_enum (vs : List AgentVerdict)
    (h : ∀ v ∈ vs, v.verdict ∈ enumLabels) :
    majority_vote vs = .ok
      ⟨winnerOf (tallies vs),
       (if 0 < (tallies vs).faithful + (tallies vs).mutation + (tallies vs).uncertain
        then votesAt (tallies vs) (winnerOf (tallies vs)) /
          ((tallies vs).faithful + (tallies vs).mutation + (tallies vs).uncertain)
        else 0),
       "Majority vote (" ++ strJoin ", " (vs.map fun v => v.agent_name ++ "=" ++ v.verdict) ++
         "). Winner: " ++ winnerOf (tallies vs) ++ " with weighted score " ++
         fmtFixed2 (votesAt (tallies vs) (winnerOf (tallies vs))),
       (vs.filter fun v => v.verdict ≠ winnerOf (tallies vs)).map
         (fun v => v.agent_name ++ ": " ++ strTake 100 v.reasoning ++ "..."),
       if winnerOf (tallies vs) = "mutation" then some (identify_mutation_type vs) else none⟩ := by
  have hfold := foldlM_addVote_ok vs ⟨0, 0, 0⟩ h
  simp only [zero_add] at hfold
  simp only [majority_vote, bind, Except.bind, hfold, tallies]

/-- The winner always takes one of the three fixed keys. -/
theorem winnerOf_mem_enum (T : Votes) : winnerOf T ∈ enumLabels := by
  simp only [winnerOf, enumLabels]
  split <;> split <;> simp

/-- Evaluating `votesAt` at the `"faithful"` key. -/
theorem votesAt_faithful (T : Votes) : votesAt T "faithful" = T.faithful := rfl

/-- Evaluating `votesAt` at the `"mutation"` key. -/
theorem votesAt_mutation (T : Votes) : votesAt T "mutation" = T.mutation := rfl

/-- Evaluating `votesAt` at the `"uncertain"` key. -/
theorem votesAt_uncertain (T : Votes) : votesAt T "uncertain" = T.uncertain := rfl

/-- Case split on the two comparisons inside `winnerOf`. -/
theorem winnerOf_cases (T : Votes) :
    (T.faithful < T.mutation ∧ T.mutation < T.uncertain ∧ winnerOf T = "uncertain") ∨
    (T.faithful < T.mutation ∧ T.uncertain ≤ T.mutation ∧ winnerOf T = "mutation") ∨
    (T.mutation ≤ T.faithful ∧ T.faithful < T.uncertain ∧ winnerOf T = "uncertain") ∨
    (T.mutation ≤ T.faithful ∧ T.uncertain ≤ T.faithful ∧ winnerOf T = "faithful") := by
  by_cases h1 : T.mutation > T.faithful
  · by_cases h2 : T.uncertain > T.mutation
    · exact Or.inl ⟨h1, h2, by simp only [winnerOf, if_pos h1, if_pos h2]⟩
    · exact Or.inr (Or.inl ⟨h1, not_lt.mp h2, by simp only [winnerOf, if_pos h1, if_neg h2]⟩)
  · by_cases h2 : T.uncertain > T.faithful
    · exact Or.inr (Or.inr (Or.inl
        ⟨not_lt.mp h1, h2, by simp only [winnerOf, if_neg h1, if_pos h2]⟩))
    · exact Or.inr (Or.inr (Or.inr
        ⟨not_lt.mp h1, not_lt.mp h2, by simp only [winnerOf, if_neg h1, if_neg h2]⟩))

/-- The winner's total dominates each key's total. -/
theorem winnerOf_max (T : Votes) (l : String) (hl : l ∈ enumLabels) :
    votesAt T l ≤ votesAt T (winnerOf T) := by
  simp only [enumLabels, List.mem_cons, List.not_mem_nil, or_false] at hl
  rcases winnerOf_cases T with ⟨a, b, hw⟩ | ⟨a, b, hw⟩ | ⟨a, b, hw⟩ | ⟨a, b, hw⟩ <;>
    rw [hw] <;>
    rcases hl with rfl | rfl | rfl <;>
    simp only [votesAt_faithful, votesAt_mutation, votesAt_uncertain] <;> linarith

/-- The winner is `"faithful"` exactly when faithful's total is maximal:
Python's `max` keeps the earliest key on ties. -/
theorem winnerOf_eq_faithful_iff (T : Votes) :
    winnerOf T = "faithful" ↔ T.mutation ≤ T.faithful ∧ T.uncertain ≤ T.faithful := by
  rcases winnerOf_cases T with ⟨a, b, hw⟩ | ⟨a, b, hw⟩ | ⟨a, b, hw⟩ | ⟨a, b, hw⟩ <;> rw [hw]
  · exact iff_of_false (by decide) (by rintro ⟨x, y⟩; linarith)
  · exact iff_of_false (by decide) (by rintro ⟨x, y⟩; linarith)
  · exact iff_of_false (by decide) (by rintro ⟨x, y⟩; linarith)
  · exact iff_of_true rfl ⟨a, b⟩

/-- The winner is `"mutation"` exactly when mutation's total strictly beats
faithful's and is at least uncertain's. -/
theorem winnerOf_eq_mutation_iff (T : Votes) :
    winnerOf T = "mutation" ↔ T.faithful < T.mutation ∧ T.uncertain ≤ T.mutation := by
  rcases winnerOf_cases T with ⟨a, b, hw⟩ | ⟨a, b, hw⟩ | ⟨a, b, hw⟩ | ⟨a, b, hw⟩ <;> rw [hw]
  · exact iff_of_false (by decide) (by rintro ⟨x, y⟩; linarith)
  · exact iff_of_true rfl ⟨a, b⟩
  · exact iff_of_false (by decide) (by rintro ⟨x, y⟩; linarith)
  · exact iff_of_false (by decide) (by rintro ⟨x, y⟩; linarith)

/-- The winner is `"uncertain"` exactly when uncertain's total strictly beats
both others. -/
theorem winnerOf_eq_uncertain_iff (T : Votes) :
    winnerOf T = "uncertain" ↔ T.faithful < T.uncertain ∧ T.mutation < T.uncertain := by
  rcases winnerOf_cases T with ⟨a, b, hw⟩ | ⟨a, b, hw⟩ | ⟨a, b, hw⟩ | ⟨a, b, hw⟩ <;> rw [hw]
  · exact iff_of_true rfl ⟨by linarith, b⟩
  · exact iff_of_false (by decide) (by rintro ⟨x, y⟩; linarith)
  · exact iff_of_true rfl ⟨b, by linarith⟩
  · exact iff_of_false (by decide) (by rintro ⟨x, y⟩; linarith)

/-! ## Claim C1 -/

/-- Claim C1: every parsed Verdict has a label in \x7bfaithful, mutation,
uncertain\x7d (unrecognized values coerced to `uncertain`) and a confidence
clamped/validated into [0, 1].  The code violates this: on the JSON output
`\x7b"verdict": "Bogus", "confidence": 2.5\x7d` the parser lowercases the label but
passes the unrecognized value `"bogus"` through uncoerced, and accepts the
confidence `2.5` without clamping (missing keys do default to
`uncertain`/`0.5`, and the keyword fallback tier does stay inside the
enumeration — the structured tier is the violating path). -/
theorem C1_parse_accepts_unvalidated_fields :
    parse_verdict "agent" c1FailingOutput =
      .ok ⟨"agent", "bogus", mkRat 5 2, "No reasoning provided", []⟩ ∧
    "bogus" ∉ enumLabels ∧ (mkRat 5 2 : ℚ) = 5 / 2 ∧ ¬((5 : ℚ) / 2 ≤ 1) := by
  refine ⟨by decide, by decide, by rw [Rat.mkRat_eq_div]; norm_num, by norm_num⟩

/-! ## Claim C6 -/

/-- Claim C6: synthesis never raises on any verdict list the system's own
parsing can produce.  The code violates this: parsing the JSON output above
yields a Verdict labelled `"bogus"`, and the majority strategy's
`votes[v.verdict] += v.confidence` then raises `KeyError("bogus")` instead of
returning a `FinalVerdict`.  (The unanimous strategy happens to return
normally on the same input.) -/
theorem C6_majority_raises_on_parsed_verdict :
    parse_verdict "agent" c6BadOutput = .ok ⟨"agent", "bogus", mkRat 9 10, "r", []⟩ ∧
    synthesize "majority" [⟨"agent", "bogus", mkRat 9 10, "r", []⟩] =
      .done (.error (.keyError "bogus")) ∧
    majority_vote [⟨"agent", "bogus", mkRat 9 10, "r", []⟩] =
      .error (.keyError "bogus") := by
  refine ⟨by decide, ?_, by decide⟩
  have h : majority_vote [⟨"agent", "bogus", mkRat 9 10, "r", []⟩] =
      .error (.keyError "bogus") := by decide
  simp [synthesize, h]

/-! ## Claim C3 -/

/-- When every label is in the enumeration, the three per-label totals
partition the sum of all confidences. -/
theorem labelTotal_partition (vs : List AgentVerdict)
    (h : ∀ v ∈ vs, v.verdict ∈ enumLabels) :
    labelTotal "faithful" vs + labelTotal "mutation" vs + labelTotal "uncertain" vs =
      (vs.map (fun v => v.confidence)).sum := by
  induction vs with
  | nil => simp [labelTotal]
  | cons v vs ih =>
    have hv : v.verdict ∈ enumLabels := h v (List.mem_cons_self v vs)
    have hrest : ∀ w ∈ vs, w.verdict ∈ enumLabels := fun w hw => h w (List.mem_cons_of_mem v hw)
    have ih' := ih hrest
    simp only [enumLabels, List.mem_cons, List.not_mem_nil, or_false] at hv
    rcases hv with hv | hv | hv <;>
      · simp only [labelTotal, List.filter_cons, List.map_cons, List.sum_cons, hv]
        simp only [labelTotal] at ih'
        simp
        linarith

/-- For labels in the enumeration, looking up the tallies record agrees with
the per-label total. -/
theorem votesAt_tallies (vs : List AgentVerdict) (l : String) (hl : l ∈ enumLabels) :
    votesAt (tallies vs) l = labelTotal l vs := by
  simp only [enumLabels, List.mem_cons, List.not_mem_nil, or_false] at hl
  rcases hl with rfl | rfl | rfl <;> rfl

/-- Claim C3 (amended): for verdict lists with labels in the closed
enumeration, the weighted majority returns a winner whose summed confidence is
maximal; the final confidence is the winning total divided by the sum of all
confidences when that sum is strictly positive and `0` otherwise; the
dissenting opinions are the excerpts of exactly the verdicts whose label
differs from the winner, in input order; and the mutation type is derived by
the keyword classification exactly when the winner is `mutation`. -/
theorem C3_weighted_majority_characterization (vs : List AgentVerdict)
    (h : ∀ v ∈ vs, v.verdict ∈ enumLabels) :
    ∃ out, majority_vote vs = .ok out ∧
      out.verdict ∈ enumLabels ∧
      (∀ l ∈ enumLabels, labelTotal l vs ≤ labelTotal out.verdict vs) ∧
      labelTotal "faithful" vs + labelTotal "mutation" vs + labelTotal "uncertain" vs =
        (vs.map (fun v => v.confidence)).sum ∧
      out.confidence =
        (if 0 < (vs.map (fun v => v.confidence)).sum
         then labelTotal out.verdict vs / (vs.map (fun v => v.confidence)).sum
         else 0) ∧
      out.dissenting_opinions =
        (vs.filter (fun v => v.verdict ≠ out.verdict)).map
          (fun v => v.agent_name ++ ": " ++ strTake 100 v.reasoning ++ "...") ∧
      out.mutation_type =
        (if out.verdict = "mutation" then some (identify_mutation_type vs) else none) := by
  refine ⟨_, majority_vote_eq_of_enum vs h, winnerOf_mem_enum _, ?_, labelTotal_partition vs h,
    ?_, rfl, rfl⟩
  · intro l hl
    have := winnerOf_max (tallies vs) l hl
    rwa [votesAt_tallies vs l hl,
      votesAt_tallies vs (winnerOf (tallies vs)) (winnerOf_mem_enum _)] at this
  · have hpart := labelTotal_partition vs h
    have hw := votesAt_tallies vs (winnerOf (tallies vs)) (winnerOf_mem_enum (tallies vs))
    simp only [tallies] at hpart hw ⊢
    rw [hpart, hw]

/-- Witness: the weighted-majority characterization applied to a concrete
three-agent list. -/
theorem C3_weighted_majority_characterization_witness :
    (∀ v ∈ c3Witness, v.verdict ∈ enumLabels) ∧
    (∃ out, majority_vote c3Witness = .ok out ∧
      out.verdict ∈ enumLabels ∧
      (∀ l ∈ enumLabels, labelTotal l c3Witness ≤ labelTotal out.verdict c3Witness) ∧
      labelTotal "faithful" c3Witness + labelTotal "mutation" c3Witness +
          labelTotal "uncertain" c3Witness =
        (c3Witness.map (fun v => v.confidence)).sum ∧
      out.confidence =
        (if 0 < (c3Witness.map (fun v => v.confidence)).sum
         then labelTotal out.verdict c3Witness / (c3Witness.map (fun v => v.confidence)).sum
         else 0) ∧
      out.dissenting_opinions =
        (c3Witness.filter (fun v => v.verdict ≠ out.verdict)).map
          (fun v => v.agent_name ++ ": " ++ strTake 100 v.reasoning ++ "...") ∧
      out.mutation_type =
        (if out.verdict = "mutation" then some (identify_mutation_type c3Witness) else none)) :=
  ⟨by decide, C3_weighted_majority_characterization c3Witness (by decide)⟩

/-- Claim C3 as stated is false: with labels in the enumeration but a negative
confidence (which the parser accepts, see C1), the winner is `faithful` and
the sum of all confidences is `-1 ≠ 0`, yet the code's final confidence is `0`
— not the claimed quotient `winning total ÷ sum = -1`. -/
theorem C3_counterexample :
    (Except.map (fun out => (out.verdict, out.confidence)) (majority_vote c3Bad) =
      .ok ("faithful", 0)) ∧
    (c3Bad.map (fun v => v.confidence)).sum = -1 ∧
    labelTotal "faithful" c3Bad / (c3Bad.map (fun v => v.confidence)).sum = -1 ∧
    (0 : ℚ) ≠ -1 := by
  have hf1 : c3Bad.filter (fun v => v.verdict = "faithful") =
      [⟨"A", "faithful", 1, "r", []⟩] := by decide
  have hf2 : c3Bad.filter (fun v => v.verdict = "mutation") =
      [⟨"B", "mutation", -2, "s", []⟩] := by decide
  have hf3 : c3Bad.filter (fun v => v.verdict = "uncertain") = [] := by decide
  have htal : tallies c3Bad = ⟨1, -2, 0⟩ := by
    simp [tallies, labelTotal, hf1, hf2, hf3]
  have hwin : winnerOf (tallies c3Bad) = "faithful" := by
    rw [htal, winnerOf_eq_faithful_iff]
    norm_num
  have heval := majority_vote_eq_of_enum c3Bad (by decide)
  have h1 : labelTotal "faithful" c3Bad = 1 := by
    simp [labelTotal, hf1]
  have h2 : (c3Bad.map (fun v => v.confidence)).sum = -1 := by
    simp [c3Bad]
    norm_num
  refine ⟨?_, h2, ?_, by norm_num⟩
  · rw [heval]
    simp only [Except.map, hwin]
    rw [htal]
    simp only [votesAt_faithful]
    norm_num
  · rw [h1, h2]
    norm_num

/-! ## Claim C10 -/

/-- Claim C10: weighted-majority tie-breaking is deterministic and biased
toward `faithful` — the winner is the first label in the fixed key order
`faithful, mutation, uncertain` whose summed confidence is maximal (a later
key wins only by a strictly greater total); in particular the empty verdict
list yields label `faithful` with confidence `0`, no dissent and no mutation
type, without raising. -/
theorem C10_tie_break_faithful_first (vs : List AgentVerdict)
    (h : ∀ v ∈ vs, v.verdict ∈ enumLabels) :
    ∃ out, majority_vote vs = .ok out ∧
      (out.verdict = "faithful" ↔
        labelTotal "mutation" vs ≤ labelTotal "faithful" vs ∧
        labelTotal "uncertain" vs ≤ labelTotal "faithful" vs) ∧
      (out.verdict = "mutation" ↔
        labelTotal "faithful" vs < labelTotal "mutation" vs ∧
        labelTotal "uncertain" vs ≤ labelTotal "mutation" vs) ∧
      (out.verdict = "uncertain" ↔
        labelTotal "faithful" vs < labelTotal "uncertain" vs ∧
        labelTotal "mutation" vs < labelTotal "uncertain" vs) ∧
      (vs = [] → out.verdict = "faithful" ∧ out.confidence = 0 ∧
        out.dissenting_opinions = [] ∧ out.mutation_type = none) := by
  refine ⟨_, majority_vote_eq_of_enum vs h,
    winnerOf_eq_faithful_iff (tallies vs),
    winnerOf_eq_mutation_iff (tallies vs),
    winnerOf_eq_uncertain_iff (tallies vs), ?_⟩
  rintro rfl
  have hwin : winnerOf (tallies []) = "faithful" := by
    rw [winnerOf_eq_faithful_iff]
    constructor <;> simp [tallies, labelTotal]
  refine ⟨hwin, ?_, ?_, ?_⟩
  · simp [tallies, labelTotal]
  · simp
  · rw [hwin]
    simp

/-- Witness: tie-breaking applied to a concrete tied two-agent list. -/
theorem C10_tie_break_faithful_first_witness :
    (∀ v ∈ c10Witness, v.verdict ∈ enumLabels) ∧
    (∃ out, majority_vote c10Witness = .ok out ∧
      (out.verdict = "faithful" ↔
        labelTotal "mutation" c10Witness ≤ labelTotal "faithful" c10Witness ∧
        labelTotal "uncertain" c10Witness ≤ labelTotal "faithful" c10Witness) ∧
      (out.verdict = "mutation" ↔
        labelTotal "faithful" c10Witness < labelTotal "mutation" c10Witness ∧
        labelTotal "uncertain" c10Witness ≤ labelTotal "mutation" c10Witness) ∧
      (out.verdict = "uncertain" ↔
        labelTotal "faithful" c10Witness < labelTotal "uncertain" c10Witness ∧
        labelTotal "mutation" c10Witness < labelTotal "uncertain" c10Witness) ∧
      (c10Witness = [] → out.verdict = "faithful" ∧ out.confidence = 0 ∧
        out.dissenting_opinions = [] ∧ out.mutation_type = none)) :=
  ⟨by decide, C10_tie_break_faithful_first c10Witness (by decide)⟩

/-! ## Claim C9 -/

/-- Per-label totals are invariant under permutation of the verdict list. -/
theorem labelTotal_perm (l : String) (l1 l2 : List AgentVerdict) (hp : l1.Perm l2) :
    labelTotal l l1 = labelTotal l l2 :=
  List.Perm.sum_eq ((hp.filter (fun v => v.verdict = l)).map (fun v => v.confidence))

/-- Claim C9 (amended): under permutation of the verdict list, weighted
majority either raises a `KeyError` on both lists, or succeeds on both with
the same winner and final confidence and with dissenting opinions that are a
permutation of one another.  (The human-readable reasoning string and — via
the order-dependent joined keyword text — the derived mutation type are not
order-independent; see the counterexample.) -/
theorem C9_majority_perm_invariance (l1 l2 : List AgentVerdict) (hp : l1.Perm l2) :
    ((∃ k1, majority_vote l1 = .error (.keyError k1)) ∧
     (∃ k2, majority_vote l2 = .error (.keyError k2))) ∨
    (∃ o1 o2, majority_vote l1 = .ok o1 ∧ majority_vote l2 = .ok o2 ∧
      o1.verdict = o2.verdict ∧ o1.confidence = o2.confidence ∧
      o1.dissenting_opinions.Perm o2.dissenting_opinions) := by
  by_cases hall : ∀ v ∈ l1, v.verdict ∈ enumLabels
  · have hall2 : ∀ v ∈ l2, v.verdict ∈ enumLabels := fun v hv =>
      hall v (hp.mem_iff.mpr hv)
    have htal : tallies l1 = tallies l2 := by
      simp only [tallies, labelTotal_perm "faithful" l1 l2 hp,
        labelTotal_perm "mutation" l1 l2 hp, labelTotal_perm "uncertain" l1 l2 hp]
    refine Or.inr ⟨_, _, majority_vote_eq_of_enum l1 hall,
      majority_vote_eq_of_enum l2 hall2, by rw [htal], by rw [htal], ?_⟩
    simp only [htal]
    exact (hp.filter (fun v => v.verdict ≠ winnerOf (tallies l2))).map
      (fun v => v.agent_name ++ ": " ++ strTake 100 v.reasoning ++ "...")
  · push_neg at hall
    rcases hall with ⟨v, hv, hvbad⟩
    have h1 := foldlM_addVote_error l1 ⟨0, 0, 0⟩ ⟨v, hv, hvbad⟩
    have h2 := foldlM_addVote_error l2 ⟨0, 0, 0⟩ ⟨v, hp.mem_iff.mp hv, hvbad⟩
    rcases h1 with ⟨k1, hk1, _⟩
    rcases h2 with ⟨k2, hk2, _⟩
    refine Or.inl ⟨⟨k1, ?_⟩, ⟨k2, ?_⟩⟩ <;>
      simp [majority_vote, bind, Except.bind, hk1, hk2]

/-- Claim C9 as stated is false: permuting the verdict list changes the
synthesized result.  The dissenting-opinion list comes out in the permuted
order, and the derived mutation type itself can change, because the keyword
text joins the reasonings in list order ("as" ++ " " ++ "of" contains the
temporal keyword "as of"; the reverse order does not). -/
theorem C9_counterexample :
    c9a.Perm c9b ∧
    Except.map (fun o => o.dissenting_opinions) (majority_vote c9a) =
      .ok ["B: rb...", "C: rc..."] ∧
    Except.map (fun o => o.dissenting_opinions) (majority_vote c9b) =
      .ok ["C: rc...", "B: rb..."] ∧
    (["B: rb...", "C: rc..."] : List String) ≠ ["C: rc...", "B: rb..."] ∧
    c9m1.Perm c9m2 ∧
    Except.map (fun o => o.mutation_type) (majority_vote c9m1) = .ok (some "temporal") ∧
    Except.map (fun o => o.mutation_type) (majority_vote c9m2) = .ok (some "unspecified") := by
  have htal_a : tallies c9a = ⟨3, 2, 0⟩ := by
    have hf1 : c9a.filter (fun v => v.verdict = "faithful") =
        [⟨"A", "faithful", 3, "ra", []⟩] := by decide
    have hf2 : c9a.filter (fun v => v.verdict = "mutation") =
        [⟨"B", "mutation", 1, "rb", []⟩, ⟨"C", "mutation", 1, "rc", []⟩] := by decide
    have hf3 : c9a.filter (fun v => v.verdict = "uncertain") = [] := by decide
    simp [tallies, labelTotal, hf1, hf2, hf3]
    norm_num
  have htal_b : tallies c9b = ⟨3, 2, 0⟩ := by
    have hf1 : c9b.filter (fun v => v.verdict = "faithful") =
        [⟨"A", "faithful", 3, "ra", []⟩] := by decide
    have hf2 : c9b.filter (fun v => v.verdict = "mutation") =
        [⟨"C", "mutation", 1, "rc", []⟩, ⟨"B", "mutation", 1, "rb", []⟩] := by decide
    have hf3 : c9b.filter (fun v => v.verdict = "uncertain") = [] := by decide
    simp [tallies, labelTotal, hf1, hf2, hf3]
    norm_num
  have hwin_a : winnerOf (tallies c9a) = "faithful" := by
    rw [htal_a, winnerOf_eq_faithful_iff]
    norm_num
  have hwin_b : winnerOf (tallies c9b) = "faithful" := by
    rw [htal_b, winnerOf_eq_faithful_iff]
    norm_num
  have htal_m1 : tallies c9m1 = ⟨0, 2, 0⟩ := by
    have hf1 : c9m1.filter (fun v => v.verdict = "faithful") = [] := by decide
    have hf2 : c9m1.filter (fun v => v.verdict = "mutation") = c9m1 := by decide
    have hf3 : c9m1.filter (fun v => v.verdict = "uncertain") = [] := by decide
    simp [tallies, labelTotal, hf1, hf2, hf3, c9m1]
    norm_num
  have htal_m2 : tallies c9m2 = ⟨0, 2, 0⟩ := by
    have hf1 : c9m2.filter (fun v => v.verdict = "faithful") = [] := by decide
    have hf2 : c9m2.filter (fun v => v.verdict = "mutation") = c9m2 := by decide
    have hf3 : c9m2.filter (fun v => v.verdict = "uncertain") = [] := by decide
    simp [tallies, labelTotal, hf1, hf2, hf3, c9m2]
    norm_num
  have hwin_m1 : winnerOf (tallies c9m1) = "mutation" := by
    rw [htal_m1, winnerOf_eq_mutation_iff]
    norm_num
  have hwin_m2 : winnerOf (tallies c9m2) = "mutation" := by
    rw [htal_m2, winnerOf_eq_mutation_iff]
    norm_num
  refine ⟨by decide, ?_, ?_, by decide, by decide, ?_, ?_⟩
  · rw [majority_vote_eq_of_enum c9a (by decide)]
    simp only [Except.map, hwin_a]
    have : (c9a.filter (fun v => v.verdict ≠ "faithful")).map
        (fun v => v.agent_name ++ ": " ++ strTake 100 v.reasoning ++ "...") =
        ["B: rb...", "C: rc..."] := by decide
    rw [this]
  · rw [majority_vote_eq_of_enum c9b (by decide)]
    simp only [Except.map, hwin_b]
    have : (c9b.filter (fun v => v.verdict ≠ "faithful")).map
        (fun v => v.agent_name ++ ": " ++ strTake 100 v.reasoning ++ "...") =
        ["C: rc...", "B: rb..."] := by decide
    rw [this]
  · rw [majority_vote_eq_of_enum c9m1 (by decide)]
    simp only [Except.map, hwin_m1]
    have : identify_mutation_type c9m1 = "temporal" := by decide
    simp [this]
  · rw [majority_vote_eq_of_enum c9m2 (by decide)]
    simp only [Except.map, hwin_m2]
    have : identify_mutation_type c9m2 = "unspecified" := by decide
    simp [this]

/-- Witness: the amended permutation invariance applied to a concrete
permuted pair (the dissent pair above). -/
theorem C9_majority_perm_invariance_witness :
    c9a.Perm c9b ∧
    (((∃ k1, majority_vote c9a = .error (.keyError k1)) ∧
      (∃ k2, majority_vote c9b = .error (.keyError k2))) ∨
     (∃ o1 o2, majority_vote c9a = .ok o1 ∧ majority_vote c9b = .ok o2 ∧
       o1.verdict = o2.verdict ∧ o1.confidence = o2.confidence ∧
       o1.dissenting_opinions.Perm o2.dissenting_opinions)) :=
  ⟨by decide, C9_majority_perm_invariance c9a c9b (by decide)⟩

/-! ## Claim C4 -/

/-- Unfolding `String.toList` on an explicit character list. -/
theorem toList_mk (l : List Char) : (String.mk l).toList = l := rfl

/-- Characterization of `firstIdxOf`: it returns the position of the first
occurrence. -/
theorem firstIdxOf_spec (cs : List Char) (c : Char) :
    ∀ i, firstIdxOf cs c = some i →
      ∃ pre post, cs = pre ++ c :: post ∧ pre.length = i ∧ c ∉ pre := by
  induction cs with
  | nil => intro i h; cases h
  | cons a t ih =>
    intro i h
    by_cases hac : a = c
    · refine ⟨[], t, by simp [hac], ?_, by simp⟩
      simp only [firstIdxOf, if_pos hac] at h
      cases h
      rfl
    · simp only [firstIdxOf, if_neg hac] at h
      cases hx : firstIdxOf t c with
      | none => rw [hx] at h; cases h
      | some k =>
        rw [hx] at h
        have h : k + 1 = i := by simpa using h
        rcases ih k hx with ⟨pre, post, heq, hlen, hnot⟩
        refine ⟨a :: pre, post, by simp [heq], ?_, ?_⟩
        · simp only [List.length_cons, hlen]
          omega
        · intro hmem
          rcases List.mem_cons.mp hmem with hca | hcp
          · exact hac hca.symm
          · exact hnot hcp

/-- Characterization of `lastIdxOf`: it returns the position of the last
occurrence. -/
theorem lastIdxOf_spec (cs : List Char) (c : Char) :
    ∀ j, lastIdxOf cs c = some j →
      ∃ pre post, cs = pre ++ c :: post ∧ pre.length = j ∧ c ∉ post := by
  intro j h
  simp only [lastIdxOf] at h
  cases hx : firstIdxOf cs.reverse c with
  | none => rw [hx] at h; cases h
  | some k =>
    rw [hx] at h
    cases h
    rcases firstIdxOf_spec cs.reverse c k hx with ⟨rpre, rpost, heq, hlen, hnot⟩
    refine ⟨rpost.reverse, rpre.reverse, ?_, ?_, by simp [hnot]⟩
    · have hrr := congrArg List.reverse heq
      simp only [List.reverse_reverse, List.reverse_append, List.reverse_cons] at hrr
      rw [hrr]
      simp
    · have hcslen : cs.length = rpre.length + 1 + rpost.length := by
        have hc := congrArg List.length heq
        simp at hc
        omega
      simp only [List.length_reverse]
      omega

/-- The region matched by the greedy regex runs from the first opening brace
to the last closing brace: the text before it has no opening brace, the text
after it has no closing brace, and the region itself starts with an opening
and ends with a closing brace. -/
theorem extractBraces_spec (s t : String) (h : extractBraces s = some t) :
    ∃ pre post, s.toList = pre ++ t.toList ++ post ∧
      '\x7b' ∉ pre ∧ '\x7d' ∉ post ∧
      t.toList.head? = some '\x7b' ∧ t.toList.getLast? = some '\x7d' := by
  simp only [extractBraces] at h
  split at h
  · rename_i i j hi hj
    split at h
    · rename_i hij
      have ht : t = String.mk ((s.toList.drop i).take (j + 1 - i)) := by
        cases h
        rfl
      subst ht
      rcases firstIdxOf_spec s.toList '\x7b' i hi with ⟨p1, q1, he1, hl1, hn1⟩
      rcases lastIdxOf_spec s.toList '\x7d' j hj with ⟨p2, q2, he2, hl2, hn2⟩
      have hdropi : s.toList.drop i = '\x7b' :: q1 := by
        rw [he1, ← hl1]
        exact List.drop_left p1 _
      have htakei : s.toList.take i = p1 := by
        rw [he1, ← hl1]
        exact List.take_left p1 _
      have hdropj : s.toList.drop (j + 1) = q2 := by
        rw [he2, ← hl2]
        rw [show p2 ++ '\x7d' :: q2 = (p2 ++ ['\x7d']) ++ q2 from by simp]
        rw [show p2.length + 1 = (p2 ++ ['\x7d']).length from by simp]
        exact List.drop_left _ _
      refine ⟨p1, q2, ?_, hn1, hn2, ?_, ?_⟩
      · rw [toList_mk]
        have h1 : s.toList = s.toList.take i ++
            ((s.toList.drop i).take (j + 1 - i) ++ (s.toList.drop i).drop (j + 1 - i)) := by
          rw [List.take_append_drop, List.take_append_drop]
        have h2 : (s.toList.drop i).drop (j + 1 - i) = s.toList.drop (j + 1) := by
          rw [List.drop_drop]
          congr 1
          omega
        rw [h2, htakei, hdropj] at h1
        rw [List.append_assoc]
        exact h1
      · rw [toList_mk, hdropi]
        rw [show j + 1 - i = (j - i) + 1 from by omega, List.take_succ_cons]
        rfl
      · rw [toList_mk]
        have hp2i : i ≤ p2.length := by omega
        have hdrop2 : s.toList.drop i = p2.drop i ++ '\x7d' :: q2 := by
          rw [he2]
          exact List.drop_append_of_le_length hp2i
        have hlen2 : (p2.drop i).length = j - i := by
          simp only [List.length_drop]
          omega
        rw [hdrop2, List.take_append_eq_append_take, hlen2]
        rw [List.take_of_length_le (by simp only [List.length_drop]; omega)]
        rw [show j + 1 - i - (j - i) = 1 from by omega, List.take_succ_cons, List.take_zero]
        simp
    · cases h
  · cases h

/-- The keyword fallback tier in isolation: degraded label from the scan
order faithful-then-mutation, confidence `0.5`, 500-character excerpt, no
evidence. -/
theorem fallbackVerdict_spec (name s : String) :
    (fallbackVerdict name s).agent_name = name ∧
    (fallbackVerdict name s).confidence = mkRat 1 2 ∧
    (fallbackVerdict name s).evidence = [] ∧
    (fallbackVerdict name s).reasoning = strTake 500 s ∧
    ((fallbackVerdict name s).verdict = "faithful" ↔
      strContains (strLower s) "faithful" = true) ∧
    ((fallbackVerdict name s).verdict = "mutation" ↔
      (strContains (strLower s) "faithful" = false ∧
       strContains (strLower s) "mutation" = true)) ∧
    ((fallbackVerdict name s).verdict = "uncertain" ↔
      (strContains (strLower s) "faithful" = false ∧
       strContains (strLower s) "mutation" = false)) := by
  refine ⟨rfl, rfl, rfl, rfl, ?_, ?_, ?_⟩ <;>
    · simp only [fallbackVerdict]
      by_cases h1 : strContains (strLower s) "faithful"
      · simp [h1]
      · by_cases h2 : strContains (strLower s) "mutation" <;>
          simp [h1, h2]

/-- Claim C4 (amended): the structured tier decodes the greedy regex region —
from the text's first opening brace to its last closing brace, not the first
balanced region — as JSON; whenever that region is absent or fails to decode,
the parser returns the keyword-fallback verdict: label from the
case-insensitive faithful-then-mutation scan (`uncertain` if neither occurs),
confidence `0.5`, the first 500 characters of the raw text as reasoning, and
no evidence. -/
theorem C4_greedy_region_and_fallback :
    (∀ s t, extractBraces s = some t →
      ∃ pre post, s.toList = pre ++ t.toList ++ post ∧
        '\x7b' ∉ pre ∧ '\x7d' ∉ post ∧
        t.toList.head? = some '\x7b' ∧ t.toList.getLast? = some '\x7d') ∧
    (∀ name s, (∀ t, extractBraces s = some t → jsonParse t = none) →
      ∃ out, parse_verdict name s = .ok out ∧
        out.agent_name = name ∧
        out.confidence = mkRat 1 2 ∧
        out.evidence = [] ∧
        out.reasoning = strTake 500 s ∧
        (out.verdict = "faithful" ↔ strContains (strLower s) "faithful" = true) ∧
        (out.verdict = "mutation" ↔
          (strContains (strLower s) "faithful" = false ∧
           strContains (strLower s) "mutation" = true)) ∧
        (out.verdict = "uncertain" ↔
          (strContains (strLower s) "faithful" = false ∧
           strContains (strLower s) "mutation" = false))) := by
  refine ⟨extractBraces_spec, ?_⟩
  intro name s hfail
  have hrun : parse_verdict name s = .ok (fallbackVerdict name s) := by
    cases hx : extractBraces s with
    | none => simp [parse_verdict, hx]
    | some t =>
      have hj := hfail t hx
      simp [parse_verdict, hx, hj]
  exact ⟨fallbackVerdict name s, hrun, fallbackVerdict_spec name s⟩

/-- Claim C4 as stated is false: on the output above, decoding "the first
balanced region" would succeed and yield confidence `0.9`, but the source's
greedy regex region is the whole text (first `\x7b` to last `\x7d`), whose decode
fails, so the code takes the keyword fallback and returns confidence `0.5`. -/
theorem C4_counterexample :
    extractBraces c4Output = some c4Output ∧
    firstBalancedRegion c4Output =
      some "\x7b\"verdict\": \"mutation\", \"confidence\": 0.9\x7d" ∧
    (jsonParse c4Output).isNone = true ∧
    parse_verdict "A" c4Output =
      .ok ⟨"A", "mutation", mkRat 1 2, strTake 500 c4Output, []⟩ ∧
    parse_verdict_spec "A" c4Output =
      .ok ⟨"A", "mutation", mkRat 9 10, "No reasoning provided", []⟩ ∧
    (mkRat 1 2 : ℚ) ≠ mkRat 9 10 := by
  exact ⟨by decide, by decide, by decide, by decide, by decide, by decide⟩

/-- Witness: the amended two-tier description applied to the concrete output
above — region decomposition on one hand, fallback fields on the other. -/
theorem C4_greedy_region_and_fallback_witness :
    (extractBraces c4Output = some c4Output) ∧
    (∃ pre post, c4Output.toList = pre ++ c4Output.toList ++ post ∧
      '\x7b' ∉ pre ∧ '\x7d' ∉ post ∧
      c4Output.toList.head? = some '\x7b' ∧ c4Output.toList.getLast? = some '\x7d') ∧
    (∀ t, extractBraces c4Output = some t → jsonParse t = none) ∧
    (∃ out, parse_verdict "A" c4Output = .ok out ∧
      out.agent_name = "A" ∧
      out.confidence = mkRat 1 2 ∧
      out.evidence = [] ∧
      out.reasoning = strTake 500 c4Output ∧
      (out.verdict = "faithful" ↔ strContains (strLower c4Output) "faithful" = true) ∧
      (out.verdict = "mutation" ↔
        (strContains (strLower c4Output) "faithful" = false ∧
         strContains (strLower c4Output) "mutation" = true)) ∧
      (out.verdict = "uncertain" ↔
        (strContains (strLower c4Output) "faithful" = false ∧
         strContains (strLower c4Output) "mutation" = false))) := by
  have hext : extractBraces c4Output = some c4Output := by decide
  have hfail : ∀ t, extractBraces c4Output = some t → jsonParse t = none := by
    intro t ht
    rw [hext] at ht
    cases ht
    exact Option.isNone_iff_eq_none.mp (by decide)
  exact ⟨hext, C4_greedy_region_and_fallback.1 c4Output c4Output hext, hfail,
    C4_greedy_region_and_fallback.2 "A" c4Output hfail⟩

/-! ## Claim C7 -/

/-- Claim C7 as stated is false: an invalid strategy or mode is not surfaced
as a configuration error before generator calls.  The dispatch in
`synthesize` sends any unknown strategy name — even an arbitrary string —
into the generator-mediated `llm` branch (which performs a generator call),
and `DebateProtocol.run_debate` silently treats an unknown mode as one-shot
and completes normally. -/
theorem C7_counterexample :
    synthesize "bogus-strategy" [] = .callGenerator ∧
    synthesize "weighted_majority" [] = .callGenerator ∧
    (protocol_run_debate [c7Agent] "bogus-mode" 3 "c" "t" 0).debate_rounds = [] ∧
    (protocol_run_debate [c7Agent] "bogus-mode" 3 "c" "t" 0).initial_verdicts =
      [⟨"literalist", "faithful", 1, "ok", []⟩] := by
  refine ⟨by simp [synthesize], by simp [synthesize], ?_, ?_⟩ <;>
    simp [protocol_run_debate, collect_initial_verdicts, c7Agent]

/-- Claim C7 (amended): no configuration validation occurs.  Every strategy
name other than `"majority"` and `"unanimous"` is silently dispatched to the
generator-mediated branch, and every mode other than `"deliberation"` runs as
one-shot — no deliberation rounds, initial verdicts collected normally, no
error raised. -/
theorem C7_invalid_config_not_rejected :
    (∀ strategy : String, strategy ≠ "majority" → strategy ≠ "unanimous" →
      ∀ vs, synthesize strategy vs = .callGenerator) ∧
    (∀ (agents : List PAgent) (mode : String) (max_rounds : ℕ)
        (claim truth : String) (case_id : ℤ), mode ≠ "deliberation" →
      (protocol_run_debate agents mode max_rounds claim truth case_id).debate_rounds = [] ∧
      (protocol_run_debate agents mode max_rounds claim truth case_id).initial_verdicts =
        collect_initial_verdicts agents claim truth) := by
  constructor
  · intro strategy h1 h2 vs
    simp [synthesize, h1, h2]
  · intro agents mode max_rounds claim truth case_id hmode
    constructor <;> simp [protocol_run_debate, hmode]

/-- Witness: the no-validation behaviour at the spec's own canonical strategy
name `"weighted_majority"` (not a key the code recognizes) and at an
unknown mode string. -/
theorem C7_invalid_config_not_rejected_witness :
    ("weighted_majority" : String) ≠ "majority" ∧
    ("weighted_majority" : String) ≠ "unanimous" ∧
    synthesize "weighted_majority" [] = .callGenerator ∧
    ("one-shot" : String) ≠ "deliberation" ∧
    (protocol_run_debate [c7Agent] "one-shot" 2 "c" "t" 0).debate_rounds = [] ∧
    (protocol_run_debate [c7Agent] "one-shot" 2 "c" "t" 0).initial_verdicts =
      collect_initial_verdicts [c7Agent] "c" "t" :=
  ⟨by decide, by decide,
   C7_invalid_config_not_rejected.1 "weighted_majority" (by decide) (by decide) [],
   by decide,
   (C7_invalid_config_not_rejected.2 [c7Agent] "one-shot" 2 "c" "t" 0 (by decide)).1,
   (C7_invalid_config_not_rejected.2 [c7Agent] "one-shot" 2 "c" "t" 0 (by decide)).2⟩

/-! ## Claim C5 -/

/-- Claim C5: a raising agent call never aborts a round.  In every mode, the
collected verdict list has exactly one entry per agent: the agent's real
verdict when `analyze` returns, and the degraded
`uncertain`/`0.0`/error-text placeholder when it raises; each deliberation
round likewise yields one response record per agent, with an error
placeholder text when `respond_to` raises; and the whole debate returns a
result rather than propagating the exception. -/
theorem C5_agent_failure_degrades (agents : List PAgent) (mode : String)
    (max_rounds : ℕ) (claim truth : String) (case_id : ℤ) :
    (protocol_run_debate agents mode max_rounds claim truth case_id).initial_verdicts.length =
      agents.length ∧
    (∀ (i : ℕ) (a : PAgent), agents[i]? = some a →
      (protocol_run_debate agents mode max_rounds claim truth case_id).initial_verdicts[i]? =
        some (match a.analyze claim truth with
          | .ok v => v
          | .error e => ⟨a.name, "uncertain", 0, "Error: " ++ e, []⟩)) ∧
    (∀ r ∈ (protocol_run_debate agents mode max_rounds claim truth case_id).debate_rounds,
      r.responses.length = agents.length ∧
      (∀ (i : ℕ) (a : PAgent), agents[i]? = some a →
        r.responses[i]? =
          some (match a.respondTo (collect_initial_verdicts agents claim truth) claim truth with
            | .ok resp => ⟨a.name, a.color, resp⟩
            | .error e => ⟨a.name, a.color, "[Error generating response: " ++ e ++ "]"⟩))) := by
  refine ⟨?_, ?_, ?_⟩
  · simp [protocol_run_debate, collect_initial_verdicts]
  · intro i a ha
    simp only [protocol_run_debate, collect_initial_verdicts, List.getElem?_map, ha,
      Option.map_some']
    cases a.analyze claim truth <;> rfl
  · intro r hr
    simp only [protocol_run_debate] at hr
    by_cases hmode : mode = "deliberation" ∧ 0 < max_rounds
    · rw [if_pos hmode] at hr
      rcases List.mem_map.mp hr with ⟨k, hk, hrk⟩
      subst hrk
      constructor
      · simp [run_debate_round]
      · intro i a ha
        simp only [run_debate_round, List.getElem?_map, ha, Option.map_some']
    · rw [if_neg hmode] at hr
      cases hr

/-- Witness: the failure-degradation theorem applied to a concrete roster in
deliberation mode where one of three agents raises. -/
theorem C5_agent_failure_degrades_witness :
    (protocol_run_debate c5Agents "deliberation" 1 "c" "t" 7).initial_verdicts.length =
      c5Agents.length ∧
    (∀ (i : ℕ) (a : PAgent), c5Agents[i]? = some a →
      (protocol_run_debate c5Agents "deliberation" 1 "c" "t" 7).initial_verdicts[i]? =
        some (match a.analyze "c" "t" with
          | .ok v => v
          | .error e => ⟨a.name, "uncertain", 0, "Error: " ++ e, []⟩)) ∧
    (∀ r ∈ (protocol_run_debate c5Agents "deliberation" 1 "c" "t" 7).debate_rounds,
      r.responses.length = c5Agents.length ∧
      (∀ (i : ℕ) (a : PAgent), c5Agents[i]? = some a →
        r.responses[i]? =
          some (match a.respondTo (collect_initial_verdicts c5Agents "c" "t") "c" "t" with
            | .ok resp => ⟨a.name, a.color, resp⟩
            | .error e => ⟨a.name, a.color, "[Error generating response: " ++ e ++ "]"⟩))) :=
  C5_agent_failure_degrades c5Agents "deliberation" 1 "c" "t" 7

/-! ## Claim C2 -/

/-- The consensus check in share form: some label's share of the votes
reaches the threshold. -/
theorem check_consensus_iff (vs : List AgentVerdict) (θ : ℚ) :
    check_consensus vs θ = true ↔
      ∃ l ∈ vs.map (fun v => v.verdict),
        θ ≤ ((vs.map (fun v => v.verdict)).count l : ℚ) / (vs.length : ℚ) := by
  simp only [check_consensus, List.any_eq_true, List.mem_dedup, decide_eq_true_eq, ge_iff_le]

/-- Loop invariant of `crewGo`: starting at `round_num` with `remaining`
rounds left and state `st`, a successful run appends consecutively numbered
rounds, none of which passes the stop test except possibly the last, and it
stops either because the last round passed the `round ≥ 3` consensus test or
because the budget ran out. -/
theorem crewGo_spec (agents : List CrewAgent) (claim truth : String) :
    ∀ (remaining round_num : ℕ) (st st' : CrewRoundsOutcome),
      crewGo agents claim truth remaining round_num st = .ok st' →
      ∃ newRounds : List (ℕ × List AgentVerdict),
        st'.debate_rounds = st.debate_rounds ++ newRounds ∧
        newRounds.map Prod.fst = List.range' round_num newRounds.length ∧
        newRounds.length ≤ remaining ∧
        (∀ p ∈ newRounds.dropLast, ¬(3 ≤ p.1 ∧ check_consensus p.2 (4 / 5) = true)) ∧
        (remaining = 0 → st' = st) ∧
        (1 ≤ remaining →
          1 ≤ newRounds.length ∧
          newRounds.getLast? = some (round_num + newRounds.length - 1, st'.all_verdicts) ∧
          ((3 ≤ round_num + newRounds.length - 1 ∧
            check_consensus st'.all_verdicts (4 / 5) = true) ∨
           newRounds.length = remaining)) := by
  intro remaining
  induction remaining with
  | zero =>
    intro round_num st st' h
    simp only [crewGo] at h
    cases h
    exact ⟨[], by simp, by simp, by simp, by simp, fun _ => rfl,
      fun hle => absurd hle (by omega)⟩
  | succ r ih =>
    intro round_num st st' h
    simp only [crewGo] at h
    generalize htd : (if round_num = 1 then round1TaskDesc truth claim
      else rebuttalTaskDesc st.current_context truth claim) = td at h
    cases hstep : crewRoundStep agents td round_num with
    | error e =>
      rw [hstep] at h
      cases h
    | ok rvrc =>
      obtain ⟨rv, rc⟩ := rvrc
      rw [hstep] at h
      simp only at h
      split at h
      · rename_i hstop
        obtain ⟨h31, h32⟩ := hstop
        cases h
        refine ⟨[(round_num, rv)], by simp, by simp, by simp, by simp,
          fun h0 => absurd h0 (Nat.succ_ne_zero r), fun _ => ⟨by simp, by simp, Or.inl ⟨?_, h32⟩⟩⟩
        simp only [List.length_cons, List.length_nil]
        omega
      · rename_i hstop
        rcases ih (round_num + 1) _ st' h with ⟨nr, h1, h2, h3, h4, h5, h6⟩
        simp only at h1 h5
        rcases nr with _ | ⟨a, l⟩
        · have hr0 : r = 0 := by
            by_contra hr
            exact absurd (h6 (by omega)).1 (by simp)
          have hst := h5 hr0
          simp only [List.append_nil] at h1
          refine ⟨[(round_num, rv)], h1, by simp, by simp, by simp,
            fun h0 => absurd h0 (Nat.succ_ne_zero r), fun _ => ⟨by simp, ?_, Or.inr ?_⟩⟩
          · rw [hst]
            simp
          · simp [hr0]
        · have hr1 : 1 ≤ r := by
            rcases Nat.eq_zero_or_pos r with hr0 | hpos
            · exfalso
              have hst := h5 hr0
              rw [hst] at h1
              simp only at h1
              have hcontra := List.self_eq_append_right.mp h1
              cases hcontra
            · exact hpos
          rcases h6 hr1 with ⟨h61, h62, h63⟩
          refine ⟨(round_num, rv) :: a :: l, ?_, ?_, ?_, ?_,
            fun h0 => absurd h0 (Nat.succ_ne_zero r), fun _ => ⟨by simp, ?_, ?_⟩⟩
          · rw [h1]
            simp
          · simp only [List.map_cons, List.length_cons] at h2 ⊢
            rw [List.range'_succ]
            rw [← h2]
          · simp only [List.length_cons] at h3 ⊢
            omega
          · intro p hp
            rw [List.dropLast_cons₂] at hp
            rcases List.mem_cons.mp hp with rfl | hp2
            · exact hstop
            · exact h4 p hp2
          · rw [List.getLast?_cons_cons]
            simp only [List.length_cons] at h62 ⊢
            have harith : round_num + 1 + (l.length + 1) - 1 =
                round_num + (l.length + 1 + 1) - 1 := by omega
            rw [harith] at h62
            exact h62
          · rcases h63 with ⟨hl1, hl2⟩ | hr
            · left
              refine ⟨?_, hl2⟩
              simp only [List.length_cons] at hl1 ⊢
              omega
            · right
              simp only [List.length_cons] at hr ⊢
              omega

/-- Claim C2: in the six-persona debate loop, consensus is checked (with the
0.8 threshold over the round's label shares) only after rounds numbered at
least 3; a passing check stops the loop with no further rounds, and otherwise
the loop runs until `max_rounds` is exhausted.  Stated over any agent
behaviours and any successful run: the executed rounds are numbered `1..n`
with `n ≤ max_rounds`; no non-final round passes the `round ≥ 3` consensus
test; and the final round either passes it or is round `max_rounds`. -/
theorem C2_consensus_stopping (agents : List CrewAgent) (claim truth : String)
    (max_rounds : ℕ) (st' : CrewRoundsOutcome)
    (hrun : crew_run_debate_rounds agents claim truth max_rounds = .ok st')
    (hpos : 1 ≤ max_rounds) :
    (∀ vs θ, check_consensus vs θ = true ↔
      ∃ l ∈ vs.map (fun v => v.verdict),
        θ ≤ ((vs.map (fun v => v.verdict)).count l : ℚ) / (vs.length : ℚ)) ∧
    1 ≤ st'.debate_rounds.length ∧
    st'.debate_rounds.length ≤ max_rounds ∧
    st'.debate_rounds.map Prod.fst = List.range' 1 st'.debate_rounds.length ∧
    st'.debate_rounds.getLast? = some (st'.debate_rounds.length, st'.all_verdicts) ∧
    ((3 ≤ st'.debate_rounds.length ∧ check_consensus st'.all_verdicts (4 / 5) = true) ∨
      st'.debate_rounds.length = max_rounds) ∧
    (∀ p ∈ st'.debate_rounds.dropLast, ¬(3 ≤ p.1 ∧ check_consensus p.2 (4 / 5) = true)) := by
  rcases crewGo_spec agents claim truth max_rounds 1 ⟨[], [], "", []⟩ st' hrun with
    ⟨nr, h1, h2, h3, h4, _, h6⟩
  simp only [List.nil_append] at h1
  subst h1
  rcases h6 hpos with ⟨h61, h62, h63⟩
  have hidx : 1 + st'.debate_rounds.length - 1 = st'.debate_rounds.length := by omega
  rw [hidx] at h62 h63
  exact ⟨check_consensus_iff, h61, h3, h2, h62, h63, h4⟩

/-- Witness: the consensus-stopping theorem applied to a concrete two-round
run (with `max_rounds = 2` the minimum-round floor keeps the loop from
checking consensus at all, so it runs to exhaustion). -/
theorem C2_consensus_stopping_witness :
    (1 : ℕ) ≤ 2 ∧
    ∃ st', crew_run_debate_rounds c2Roster "c" "t" 2 = .ok st' ∧
      (1 ≤ st'.debate_rounds.length ∧
       st'.debate_rounds.length ≤ 2 ∧
       st'.debate_rounds.map Prod.fst = List.range' 1 st'.debate_rounds.length ∧
       st'.debate_rounds.getLast? = some (st'.debate_rounds.length, st'.all_verdicts) ∧
       ((3 ≤ st'.debate_rounds.length ∧ check_consensus st'.all_verdicts (4 / 5) = true) ∨
         st'.debate_rounds.length = 2) ∧
       (∀ p ∈ st'.debate_rounds.dropLast, ¬(3 ≤ p.1 ∧ check_consensus p.2 (4 / 5) = true))) := by
  refine ⟨by decide, ?_⟩
  have hok : (crew_run_debate_rounds c2Roster "c" "t" 2).isOk = true := by decide
  obtain ⟨st', hx⟩ : ∃ st', crew_run_debate_rounds c2Roster "c" "t" 2 = .ok st' := by
    cases hxx : crew_run_debate_rounds c2Roster "c" "t" 2 with
    | error e =>
      rw [hxx] at hok
      cases hok
    | ok s => exact ⟨s, rfl⟩
  have hall := C2_consensus_stopping c2Roster "c" "t" 2 st' hx (by decide)
  exact ⟨st', hx, hall.2.1, hall.2.2.1, hall.2.2.2.1, hall.2.2.2.2.1,
    hall.2.2.2.2.2.1, hall.2.2.2.2.2.2⟩

/-! ## Claim C8 -/

/-- A prefix of a list is a prefix of any extension of it. -/
theorem listPrefixOf_append (n xs ys : List Char) (h : listPrefixOf n xs = true) :
    listPrefixOf n (xs ++ ys) = true := by
  induction n generalizing xs with
  | nil => simp [listPrefixOf]
  | cons a n ih =>
    cases xs with
    | nil => simp [listPrefixOf] at h
    | cons x xs =>
      simp only [listPrefixOf, Bool.and_eq_true] at h ⊢
      exact ⟨h.1, ih xs h.2⟩

/-- Substring containment survives extending the text on the right. -/
theorem containsSub_append_left (a b n : List Char) (h : containsSub a n = true) :
    containsSub (a ++ b) n = true := by
  induction a with
  | nil =>
    simp only [containsSub] at h
    cases n with
    | nil =>
      cases b with
      | nil => simp [containsSub, listPrefixOf]
      | cons x xs => simp [containsSub, listPrefixOf]
    | cons m ms => simp [listPrefixOf] at h
  | cons x xs ih =>
    simp only [containsSub, Bool.or_eq_true] at h ⊢
    rcases h with h | h
    · exact Or.inl (listPrefixOf_append n (x :: xs) b h)
    · exact Or.inr (ih h)

/-- Substring containment survives extending the text on the left. -/
theorem containsSub_append_right (a b n : List Char) (h : containsSub b n = true) :
    containsSub (a ++ b) n = true := by
  induction a with
  | nil => simpa using h
  | cons x xs ih =>
    simp only [List.cons_append, containsSub, Bool.or_eq_true]
    exact Or.inr ih

/-- Conversion to character lists distributes over append. -/
theorem toList_append (s t : String) : (s ++ t).toList = s.toList ++ t.toList := by
  cases s
  cases t
  rfl

/-- String containment survives extending the text on the right. -/
theorem strContains_append_left (s t pat : String) (h : strContains s pat = true) :
    strContains (s ++ t) pat = true := by
  simp only [strContains, toList_append]
  exact containsSub_append_left _ _ _ h

/-- String containment survives extending the text on the left. -/
theorem strContains_append_right (s t pat : String) (h : strContains t pat = true) :
    strContains (s ++ t) pat = true := by
  simp only [strContains, toList_append]
  exact containsSub_append_right _ _ _ h

/-- The structured tier stamps the supplied agent name on the verdict. -/
theorem buildVerdictFromJson_name (name : String) (j : Json) (v : AgentVerdict)
    (h : buildVerdictFromJson name j = .ok v) : v.agent_name = name := by
  cases j with
  | obj members =>
    simp only [buildVerdictFromJson, bind, Except.bind] at h
    cases h1 : getVerdictField members with
    | error e => rw [h1] at h; cases h
    | ok vf =>
      rw [h1] at h
      cases h2 : getConfidenceField members with
      | error e => rw [h2] at h; cases h
      | ok cf =>
        rw [h2] at h
        cases h3 : getReasoningField members with
        | error e => rw [h3] at h; cases h
        | ok rf =>
          rw [h3] at h
          cases h4 : getEvidenceField members with
          | error e => rw [h4] at h; cases h
          | ok ef =>
            rw [h4] at h
            cases h
            rfl
  | null => cases h
  | bool b => cases h
  | num q => cases h
  | str s => cases h
  | arr xs => cases h

/-- The crew output parser stamps the supplied agent name on the verdict. -/
theorem parse_verdict_from_output_name (output name : String) (v : AgentVerdict)
    (h : parse_verdict_from_output output name = .ok v) : v.agent_name = name := by
  simp only [parse_verdict_from_output] at h
  cases hx : extractBraces output with
  | none =>
    rw [hx] at h
    simp only at h
    split at h <;> cases h <;> rfl
  | some region =>
    rw [hx] at h
    simp only at h
    cases hj : jsonParse region with
    | none =>
      rw [hj] at h
      simp only at h
      split at h <;> cases h <;> rfl
    | some j =>
      rw [hj] at h
      simp only at h
      cases hb : buildVerdictFromJson name j with
      | ok w =>
        rw [hb] at h
        simp only at h
        cases h
        exact buildVerdictFromJson_name name j v hb
      | error e =>
        rw [hb] at h
        cases e with
        | keyError k =>
          simp only at h
          cases h
          split <;> rfl
        | valueError =>
          simp only at h
          cases h
          split <;> rfl
        | typeError =>
          simp only at h
          cases h
        | attributeError =>
          simp only at h
          cases h

/-- Every verdict a crew round produces has its context line recorded in the
round's context text. -/
theorem crewRoundStep_context (agents : List CrewAgent) (td : String) (k : ℕ)
    (rv : List AgentVerdict) (rc : String)
    (h : crewRoundStep agents td k = .ok (rv, rc)) :
    ∀ v ∈ rv, strContains rc (contextLine v.agent_name v) = true := by
  have main : ∀ (ags : List CrewAgent) (acc : List AgentVerdict × String)
      (rv : List AgentVerdict) (rc : String),
      ags.foldlM (fun acc ag => do
        let output := ag.behave td
        let v ← parse_verdict_from_output output ag.name
        Except.ok (acc.1 ++ [v], acc.2 ++ contextLine ag.name v)) acc = .ok (rv, rc) →
      (∀ v ∈ acc.1, strContains acc.2 (contextLine v.agent_name v) = true) →
      ∀ v ∈ rv, strContains rc (contextLine v.agent_name v) = true := by
    intro ags
    induction ags with
    | nil =>
      intro acc rv rc hfold hacc
      simp only [List.foldlM_nil] at hfold
      cases hfold
      exact hacc
    | cons ag rest ih =>
      intro acc rv rc hfold hacc
      simp only [List.foldlM_cons, bind, Except.bind] at hfold
      cases hp : parse_verdict_from_output (ag.behave td) ag.name with
      | error e =>
        rw [hp] at hfold
        cases hfold
      | ok w =>
        rw [hp] at hfold
        simp only at hfold
        refine ih (acc.1 ++ [w], acc.2 ++ contextLine ag.name w) rv rc hfold ?_
        intro v hv
        rcases List.mem_append.mp hv with hv1 | hv2
        · exact strContains_append_left _ _ _ (hacc v hv1)
        · have hvw : v = w := by simpa using hv2
          subst hvw
          rw [parse_verdict_from_output_name (ag.behave td) ag.name v hp]
          apply strContains_append_right
          simp only [strContains]
          cases hcl : (contextLine ag.name v).toList with
          | nil => simp [containsSub, listPrefixOf]
          | cons c cs =>
            simp only [containsSub, Bool.or_eq_true]
            left
            clear hcl
            induction cs with
            | nil => simp [listPrefixOf]
            | cons d ds ihp =>
              simp only [listPrefixOf, Bool.and_eq_true] at ihp ⊢
              exact ⟨by simp, ihp⟩
  exact main agents ([], roundHeader k) rv rc h (by intro v hv; simp at hv)

/-- Containment of the accumulated context inside the rebuttal task text. -/
theorem strContains_rebuttal (ctx truth claim pat : String)
    (h : strContains ctx pat = true) :
    strContains (rebuttalTaskDesc ctx truth claim) pat = true := by
  simp only [rebuttalTaskDesc]
  apply strContains_append_left
  apply strContains_append_left
  apply strContains_append_left
  apply strContains_append_left
  apply strContains_append_left
  exact strContains_append_right _ _ _ h

/-- Loop invariant of `crewGo` at the generator boundary: every task
description issued for a round numbered at least 2 contains the context line
of every verdict of every earlier executed round. -/
theorem crewGo_prompts (agents : List CrewAgent) (claim truth : String) :
    ∀ (remaining round_num : ℕ) (st st' : CrewRoundsOutcome),
      crewGo agents claim truth remaining round_num st = .ok st' →
      (∀ q ∈ st.debate_rounds, ∀ v ∈ q.2,
        strContains st.current_context (contextLine v.agent_name v) = true) →
      (∀ q ∈ st.debate_rounds, q.1 < round_num) →
      (∀ p ∈ st.prompts, 2 ≤ p.1 → ∀ q ∈ st.debate_rounds, q.1 < p.1 →
        ∀ v ∈ q.2, strContains p.2 (contextLine v.agent_name v) = true) →
      (∀ p ∈ st.prompts, p.1 < round_num) →
      (∀ p ∈ st'.prompts, 2 ≤ p.1 → ∀ q ∈ st'.debate_rounds, q.1 < p.1 →
        ∀ v ∈ q.2, strContains p.2 (contextLine v.agent_name v) = true) := by
  intro remaining
  induction remaining with
  | zero =>
    intro round_num st st' h hctx hrlt hpr hplt
    simp only [crewGo] at h
    cases h
    exact hpr
  | succ r ih =>
    intro round_num st st' h hctx hrlt hpr hplt
    simp only [crewGo] at h
    generalize htd : (if round_num = 1 then round1TaskDesc truth claim
      else rebuttalTaskDesc st.current_context truth claim) = td at h
    cases hstep : crewRoundStep agents td round_num with
    | error e =>
      rw [hstep] at h
      cases h
    | ok rvrc =>
      obtain ⟨rv, rc⟩ := rvrc
      rw [hstep] at h
      simp only at h
      have hline := crewRoundStep_context agents td round_num rv rc hstep
      -- invariants for the post-round state
      have hctx1 : ∀ q ∈ st.debate_rounds ++ [(round_num, rv)], ∀ v ∈ q.2,
          strContains (st.current_context ++ rc) (contextLine v.agent_name v) = true := by
        intro q hq v hv
        rcases List.mem_append.mp hq with hq1 | hq2
        · exact strContains_append_left _ _ _ (hctx q hq1 v hv)
        · have hq2e : q = (round_num, rv) := by simpa using hq2
          subst hq2e
          exact strContains_append_right _ _ _ (hline v hv)
      have hrlt1 : ∀ q ∈ st.debate_rounds ++ [(round_num, rv)], q.1 < round_num + 1 := by
        intro q hq
        rcases List.mem_append.mp hq with hq1 | hq2
        · exact Nat.lt_succ_of_lt (hrlt q hq1)
        · have hq2e : q = (round_num, rv) := by simpa using hq2
          subst hq2e
          exact Nat.lt_succ_self round_num
      have hpr1 : ∀ p ∈ st.prompts ++ [(round_num, td)], 2 ≤ p.1 →
          ∀ q ∈ st.debate_rounds ++ [(round_num, rv)], q.1 < p.1 →
          ∀ v ∈ q.2, strContains p.2 (contextLine v.agent_name v) = true := by
        intro p hp hp2 q hq hqp v hv
        rcases List.mem_append.mp hp with hp1 | hpnew
        · rcases List.mem_append.mp hq with hq1 | hq2
          · exact hpr p hp1 hp2 q hq1 hqp v hv
          · have hq2e : q = (round_num, rv) := by simpa using hq2
            subst hq2e
            exact absurd hqp (by have := hplt p hp1; simp only at this ⊢; omega)
        · have hpe : p = (round_num, td) := by simpa using hpnew
          subst hpe
          rcases List.mem_append.mp hq with hq1 | hq2
          · have hrn1 : round_num ≠ 1 := by
              simp only at hp2
              omega
            have htd2 : td = rebuttalTaskDesc st.current_context truth claim := by
              rw [← htd, if_neg hrn1]
            rw [htd2]
            exact strContains_rebuttal _ _ _ _ (hctx q hq1 v hv)
          · have hq2e : q = (round_num, rv) := by simpa using hq2
            subst hq2e
            exact absurd hqp (by simp)
      have hplt1 : ∀ p ∈ st.prompts ++ [(round_num, td)], p.1 < round_num + 1 := by
        intro p hp
        rcases List.mem_append.mp hp with hp1 | hpnew
        · exact Nat.lt_succ_of_lt (hplt p hp1)
        · have hpe : p = (round_num, td) := by simpa using hpnew
          subst hpe
          exact Nat.lt_succ_self round_num
      split at h
      · cases h
        exact hpr1
      · exact ih (round_num + 1) _ st' h hctx1 hrlt1 hpr1 hplt1

/-- Claim C8 (amended): the two variants feed deliberation rounds
differently.  In the `"deliberation"` protocol variant, every round's
`respond_to` re-invocation receives only the round-1 verdicts — all rounds of
one session therefore produce identical response lists under deterministic
agents, the rebuttals are free text, and the collected verdicts are exactly
round 1's.  In the six-persona crew variant, every round `k ≥ 2` prompt does
embed the accumulated transcript: it contains the context line of every
verdict of every earlier round. -/
theorem C8_round_inputs :
    (∀ (agents : List PAgent) (max_rounds : ℕ) (claim truth : String) (case_id : ℤ),
      (protocol_run_debate agents "deliberation" max_rounds claim truth case_id).initial_verdicts =
        collect_initial_verdicts agents claim truth ∧
      (∀ r1 ∈ (protocol_run_debate agents "deliberation" max_rounds claim truth
          case_id).debate_rounds,
        ∀ r2 ∈ (protocol_run_debate agents "deliberation" max_rounds claim truth
          case_id).debate_rounds,
        r1.responses = r2.responses)) ∧
    (∀ (agents : List CrewAgent) (claim truth : String) (max_rounds : ℕ)
        (st' : CrewRoundsOutcome),
      crew_run_debate_rounds agents claim truth max_rounds = .ok st' →
      ∀ p ∈ st'.prompts, 2 ≤ p.1 →
        ∀ q ∈ st'.debate_rounds, q.1 < p.1 →
          ∀ v ∈ q.2, strContains p.2 (contextLine v.agent_name v) = true) := by
  constructor
  · intro agents max_rounds claim truth case_id
    refine ⟨rfl, ?_⟩
    intro r1 hr1 r2 hr2
    simp only [protocol_run_debate] at hr1 hr2
    by_cases hpos : 0 < max_rounds
    · rw [if_pos ⟨trivial, hpos⟩] at hr1 hr2
      rcases List.mem_map.mp hr1 with ⟨k1, _, hk1⟩
      rcases List.mem_map.mp hr2 with ⟨k2, _, hk2⟩
      subst hk1
      subst hk2
      rfl
    · rw [if_neg (by simp [hpos])] at hr1
      cases hr1
  · intro agents claim truth max_rounds st' hrun
    exact crewGo_prompts agents claim truth max_rounds 1 ⟨[], [], "", []⟩ st' hrun
      (by intro q hq; simp at hq) (by intro q hq; simp at hq)
      (by intro p hp; simp at hp) (by intro p hp; simp at hp)

/-- Claim C8 as stated is false for the `"deliberation"` variant: with two
deliberation rounds, round 2's recorded responses are identical to round 1's
— each round's `respond_to` call received only the round-1 verdict list, so
no text of round 1's rebuttals (nor any later-round verdict) was passed to
round 2. -/
theorem C8_counterexample :
    (protocol_run_debate [c8Agent] "deliberation" 2 "c" "t" 0).debate_rounds =
      [⟨1, [⟨"literalist", "blue", "I reviewed 1 verdicts."⟩]⟩,
       ⟨2, [⟨"literalist", "blue", "I reviewed 1 verdicts."⟩]⟩] ∧
    (∀ r1 ∈ (protocol_run_debate [c8Agent] "deliberation" 2 "c" "t" 0).debate_rounds,
      ∀ r2 ∈ (protocol_run_debate [c8Agent] "deliberation" 2 "c" "t" 0).debate_rounds,
      r1.responses = r2.responses) ∧
    [(⟨"literalist", "blue", "I reviewed 1 verdicts."⟩ : PResponse)] ≠ [] := by
  refine ⟨by decide, ?_, by decide⟩
  exact (C8_round_inputs.1 [c8Agent] 2 "c" "t" 0).2

/-- Witness: the amended round-input description applied to the concrete
protocol roster above and to a concrete two-round crew run. -/
theorem C8_round_inputs_witness :
    ((protocol_run_debate [c8Agent] "deliberation" 2 "c" "t" 0).initial_verdicts =
      collect_initial_verdicts [c8Agent] "c" "t" ∧
     (∀ r1 ∈ (protocol_run_debate [c8Agent] "deliberation" 2 "c" "t" 0).debate_rounds,
       ∀ r2 ∈ (protocol_run_debate [c8Agent] "deliberation" 2 "c" "t" 0).debate_rounds,
       r1.responses = r2.responses)) ∧
    (∃ st', crew_run_debate_rounds c2Roster "x" "y" 2 = .ok st' ∧
      (∀ p ∈ st'.prompts, 2 ≤ p.1 →
        ∀ q ∈ st'.debate_rounds, q.1 < p.1 →
          ∀ v ∈ q.2, strContains p.2 (contextLine v.agent_name v) = true)) := by
  refine ⟨C8_round_inputs.1 [c8Agent] 2 "c" "t" 0, ?_⟩
  have hok : (crew_run_debate_rounds c2Roster "x" "y" 2).isOk = true := by decide
  obtain ⟨st', hx⟩ : ∃ st', crew_run_debate_rounds c2Roster "x" "y" 2 = .ok st' := by
    cases hxx : crew_run_debate_rounds c2Roster "x" "y" 2 with
    | error e =>
      rw [hxx] at hok
      cases hok
    | ok s => exact ⟨s, rfl⟩
  exact ⟨st', hx, C8_round_inputs.2 c2Roster "x" "y" 2 st' hx⟩

end Facttrace